import Mathlib

/-!
Verification of `CacheManager` (src/initial_program_2.cpp).

A shallow embedding of the C++ class `CacheManager`: a `std::list<obj_id_t>` of
object ids (front = most recently used) together with an
`std::unordered_map<obj_id_t, std::list<obj_id_t>::iterator>` from id to the
list node holding it.

Modelling choices.
* `obj_id_t` and `uint64_t` values are natural numbers; the code performs no
  arithmetic on them, only equality tests, so no wrap-around can occur.
* A list node is a pair of its identity (`iter`, what a list iterator denotes)
  and the stored id (`val`).  `push_front` allocates a node whose identity is
  not used by any node currently in the list; identity `0` is `end()`.
* The unordered map is an association list without ordering significance;
  `map_find`, `map_count`, `map_at`, `map_assign`, `map_erase` model `find`,
  `count`, `operator[]` on a present key, `operator[]=` and `erase(key)`.
-/

namespace EvolveCache

/-- The identifier type `obj_id_t` (`uint64_t` in the source). -/
abbrev obj_id_t := Nat

/-- One node of `std::list<obj_id_t>`: `iter` identifies the node, `val` is the stored id. -/
structure ListNode where
  iter : Nat
  val : obj_id_t
deriving DecidableEq, Repr

/-- The two private members of `CacheManager`. -/
structure CacheManager where
  lru_list : List ListNode
  map : List (obj_id_t × Nat)
deriving DecidableEq, Repr

/-- The iterator `lru_list.end()`. -/
def list_end : Nat := 0

/-- The iterator `lru_list.begin()`: the identity of the first node, `end()` on an empty list. -/
def list_begin : List ListNode → Nat
  | [] => list_end
  | n :: _ => n.iter

/-- Identity given to a newly allocated node: one not carried by any node of the list. -/
def fresh_iter (l : List ListNode) : Nat :=
  (l.map ListNode.iter).foldr max 0 + 1

/-- The call `lru_list.push_front(v)`. -/
def list_push_front (l : List ListNode) (v : obj_id_t) : List ListNode :=
  ⟨fresh_iter l, v⟩ :: l

/-- The call `lru_list.erase(it)`: unlinks the node that `it` denotes. -/
def list_erase (l : List ListNode) (it : Nat) : List ListNode :=
  l.filter (fun n => n.iter ≠ it)

/-- The call `map.find(key)`: the stored iterator, `none` for `map.end()`. -/
def map_find : List (obj_id_t × Nat) → obj_id_t → Option Nat
  | [], _ => none
  | (k, v) :: m, key => if k = key then some v else map_find m key

/-- The call `map.count(key)`. -/
def map_count (m : List (obj_id_t × Nat)) (key : obj_id_t) : Nat :=
  if (map_find m key).isSome then 1 else 0

/-- The read `map[key]` of a key that is present (`end()` stands in otherwise). -/
def map_at (m : List (obj_id_t × Nat)) (key : obj_id_t) : Nat :=
  (map_find m key).getD list_end

/-- The assignment `map[key] = v`: overwrite the value of a present key, else add the key. -/
def map_assign : List (obj_id_t × Nat) → obj_id_t → Nat → List (obj_id_t × Nat)
  | [], key, v => [(key, v)]
  | (k, w) :: m, key, v => if k = key then (k, v) :: m else (k, w) :: map_assign m key v

/-- The call `map.erase(key)`. -/
def map_erase (m : List (obj_id_t × Nat)) (key : obj_id_t) : List (obj_id_t × Nat) :=
  m.filter (fun p => p.1 ≠ key)

namespace CacheManager

/-- A freshly constructed `CacheManager`: both containers empty. -/
def fresh : CacheManager := ⟨[], []⟩

/-- Embedding of `bool find(obj_id_t obj_id)`: the returned flag and the state afterwards. -/
def find (c : CacheManager) (obj_id : obj_id_t) : Bool × CacheManager :=
  match map_find c.map obj_id with
  | none => (false, c)
  | some it =>
    let l1 := list_erase c.lru_list it
    let l2 := list_push_front l1 obj_id
    (true, ⟨l2, map_assign c.map obj_id (list_begin l2)⟩)

/-- Embedding of `void insert(obj_id_t obj_id, uint64_t obj_size)`; `obj_size` is unused, as in the source. -/
def insert (c : CacheManager) (obj_id : obj_id_t) (_obj_size : Nat) : CacheManager :=
  let l1 := if map_count c.map obj_id ≠ 0 then list_erase c.lru_list (map_at c.map obj_id)
            else c.lru_list
  let l2 := list_push_front l1 obj_id
  ⟨l2, map_assign c.map obj_id (list_begin l2)⟩

/-- Embedding of `obj_id_t evict()`: the returned id and the state afterwards. -/
def evict (c : CacheManager) : obj_id_t × CacheManager :=
  match c.lru_list.getLast? with
  | none => (0, c)
  | some victim => (victim.val, ⟨c.lru_list.dropLast, map_erase c.map victim.val⟩)

/-- Ids stored in the list, front (most recently used) first. -/
def ids (c : CacheManager) : List obj_id_t := c.lru_list.map ListNode.val

/-- An id is live when the lookup map has an entry for it. -/
def live (c : CacheManager) (id : obj_id_t) : Prop := (map_find c.map id).isSome = true

instance (c : CacheManager) (id : obj_id_t) : Decidable (live c id) := by
  unfold live; infer_instance

/-- Number of live entries: the size of the map. -/
def item_count (c : CacheManager) : Nat := c.map.length

end CacheManager

/-- One call on the public interface of `CacheManager`. -/
inductive Op where
  | insert (obj_id : obj_id_t) (obj_size : Nat)
  | find (obj_id : obj_id_t)
  | evict
deriving DecidableEq, Repr

open CacheManager

/-- State after one call (return values dropped). -/
def step (c : CacheManager) : Op → CacheManager
  | .insert id size => c.insert id size
  | .find id => (c.find id).2
  | .evict => c.evict.2

/-- State after a sequence of calls issued from state `c`. -/
def runFrom (c : CacheManager) (ops : List Op) : CacheManager := ops.foldl step c

/-- State after a sequence of calls on a fresh `CacheManager`. -/
def run (ops : List Op) : CacheManager := runFrom fresh ops

/-- States a fresh `CacheManager` can reach through its public interface. -/
def Reachable (c : CacheManager) : Prop := ∃ ops, run ops = c

/-- Results of `n` successive `evict()` calls, first call first, and the state afterwards. -/
def drain : Nat → CacheManager → List obj_id_t × CacheManager
  | 0, c => ([], c)
  | n + 1, c => let r := drain n c.evict.2; (c.evict.1 :: r.1, r.2)

/-- Ids returned by the `evict()` calls among `ops` issued from `c`, in call order. -/
def evicted (c : CacheManager) : List Op → List obj_id_t
  | [] => []
  | .evict :: ops => c.evict.1 :: evicted c.evict.2 ops
  | op :: ops => evicted (step c op) ops

/-! ## Bookkeeping of the specification's per-entry metadata -/

/-- The specification's `CacheEntry` metadata (priority is derived, see `priority_lt`). -/
structure CacheEntry where
  id : obj_id_t
  size : Nat
  frequency : Nat
  sequence : Nat
deriving DecidableEq, Repr

/-- Recorded metadata of the live ids together with the specification's `clock`. -/
structure Ledger where
  entries : List CacheEntry
  clock : Nat
deriving DecidableEq, Repr

/-- The specification's `COST_SCALE`. -/
def COST_SCALE : Nat := 1000000

namespace Ledger

/-- Record an admission: frequency 1, sequence = next clock value; an older record of the id is replaced. -/
def on_insert (t : Ledger) (id : obj_id_t) (size : Nat) : Ledger :=
  ⟨⟨id, size, 1, t.clock + 1⟩ :: t.entries.filter (fun e => e.id ≠ id), t.clock + 1⟩

/-- Record a successful find: frequency + 1, sequence = next clock value. -/
def on_hit (t : Ledger) (id : obj_id_t) : Ledger :=
  ⟨t.entries.map (fun e => if e.id = id then ⟨e.id, e.size, e.frequency + 1, t.clock + 1⟩ else e),
    t.clock + 1⟩

/-- Record that `id` was evicted. -/
def on_evict (t : Ledger) (id : obj_id_t) : Ledger :=
  ⟨t.entries.filter (fun e => e.id ≠ id), t.clock⟩

end Ledger

/-- Recorded sequence number (time of the last insert or successful find) of an id. -/
def seq_of : List CacheEntry → obj_id_t → Option Nat
  | [], _ => none
  | e :: es, id => if e.id = id then some e.sequence else seq_of es id

/-- Comparison `priority e1 < priority e2` for `priority = frequency * COST_SCALE / size` with
`L = 0`, decided exactly by cross-multiplication (sizes are positive). -/
def priority_lt (e1 e2 : CacheEntry) : Bool :=
  decide (e1.frequency * COST_SCALE * e2.size < e2.frequency * COST_SCALE * e1.size)

/-- The specification's strict order on `(priority, sequence)`: lower priority first, equal
priorities by smaller sequence. -/
def gdsf_before (e1 e2 : CacheEntry) : Bool :=
  priority_lt e1 e2 || (!priority_lt e2 e1 && decide (e1.sequence < e2.sequence))

/-- The entry that is minimal in the `(priority, sequence)` order. -/
def gdsf_min : List CacheEntry → Option CacheEntry
  | [] => none
  | e :: es =>
    match gdsf_min es with
    | none => some e
    | some m => if gdsf_before e m then some e else some m

/-- One call on the cache together with the bookkeeping of what it did. -/
def stepL (s : CacheManager × Ledger) : Op → CacheManager × Ledger
  | .insert id size => (s.1.insert id size, s.2.on_insert id size)
  | .find id => ((s.1.find id).2, if (s.1.find id).1 then s.2.on_hit id else s.2)
  | .evict => (s.1.evict.2, if s.1.lru_list = [] then s.2 else s.2.on_evict s.1.evict.1)

/-- A sequence of calls from a given cache and ledger. -/
def runLFrom (s : CacheManager × Ledger) (ops : List Op) : CacheManager × Ledger :=
  ops.foldl stepL s

/-- A sequence of calls on a fresh `CacheManager`, with the bookkeeping started at clock 0. -/
def runL (ops : List Op) : CacheManager × Ledger := runLFrom (fresh, ⟨[], 0⟩) ops

/-- No call of the sequence is an `evict()`. -/
def noEvict (ops : List Op) : Prop := ∀ op ∈ ops, op ≠ Op.evict

/-- Every `insert` of the sequence has size at least 1. -/
def sizesPositive (ops : List Op) : Prop := ∀ id size, Op.insert id size ∈ ops → 1 ≤ size

/-! ## Counters and invariants used in the statements -/

/-- Consistency of the list and the map: node identities, stored ids and map keys are each
without repetition, and the map sends `k` to `it` exactly when node `it` of the list holds `k`. -/
structure Inv (c : CacheManager) : Prop where
  iters_nodup : (c.lru_list.map ListNode.iter).Nodup
  vals_nodup : (c.lru_list.map ListNode.val).Nodup
  keys_nodup : (c.map.map Prod.fst).Nodup
  link : ∀ k it, map_find c.map k = some it ↔ (⟨it, k⟩ : ListNode) ∈ c.lru_list

/-- Ids passed to the `insert` calls of a sequence, in call order. -/
def inserted_ids : List Op → List obj_id_t
  | [] => []
  | .insert id _ :: ops => id :: inserted_ids ops
  | _ :: ops => inserted_ids ops

/-- Number of admissions: `insert` calls whose id has no live entry at the time of the call. -/
def admissions (c : CacheManager) : List Op → Nat
  | [] => 0
  | .insert id size :: ops => (if live c id then 0 else 1) + admissions (c.insert id size) ops
  | .find id :: ops => admissions (c.find id).2 ops
  | .evict :: ops => admissions c.evict.2 ops

/-- Number of evictions: `evict()` calls made while the list is not empty. -/
def evictions (c : CacheManager) : List Op → Nat
  | [] => 0
  | .insert id size :: ops => evictions (c.insert id size) ops
  | .find id :: ops => evictions (c.find id).2 ops
  | .evict :: ops => (if c.lru_list = [] then 0 else 1) + evictions c.evict.2 ops

/-- Ids of the entries in ascending `(priority, sequence)` order: the eviction order the
specification prescribes while `L = 0`. -/
def gdsf_order (es : List CacheEntry) : List obj_id_t :=
  (es.insertionSort (fun e1 e2 => gdsf_before e1 e2 = true)).map CacheEntry.id

/-- The list `l` of stored ids (front first) agrees with the recorded sequence numbers `sq`:
it holds exactly the recorded ids, most recent first, and no record is ahead of the clock. -/
structure Stamped (l : List obj_id_t) (sq : obj_id_t → Option Nat) (clk : Nat) : Prop where
  mem_iff : ∀ x, x ∈ l ↔ (sq x).isSome = true
  sorted : l.Pairwise (fun x y => (sq y).getD 0 < (sq x).getD 0)
  le_clock : ∀ x s, sq x = some s → s ≤ clk
  nodup : l.Nodup

/-- The cache and the bookkeeping agree: the state is consistent, its list is sorted by the
recorded sequence numbers, and the ledger holds one record per id. -/
structure Agree (s : CacheManager × Ledger) : Prop where
  inv : Inv s.1
  stamped : Stamped s.1.ids (seq_of s.2.entries) s.2.clock
  entries_nodup : (s.2.entries.map CacheEntry.id).Nodup

/-- What one call hands back to the caller: nothing for `insert`, the flag of `find`, the id
of `evict`. -/
inductive Reply where
  | inserted
  | found (hit : Bool)
  | evicted (id : obj_id_t)
deriving DecidableEq, Repr

/-- Return values of a sequence of calls issued from state `c`, in call order. -/
def replies (c : CacheManager) : List Op → List Reply
  | [] => []
  | .insert id size :: ops => Reply.inserted :: replies (c.insert id size) ops
  | .find id :: ops => Reply.found (c.find id).1 :: replies (c.find id).2 ops
  | .evict :: ops => Reply.evicted c.evict.1 :: replies c.evict.2 ops

/-- The dual-structure bijection: the keys of the map are the ids stored in the list, no id
is stored twice, and the iterator kept for a key denotes one node, which holds that key. -/
def Bijection (c : CacheManager) : Prop :=
  (∀ id, id ∈ c.map.map Prod.fst ↔ id ∈ c.lru_list.map ListNode.val) ∧
  (c.lru_list.map ListNode.val).Nodup ∧
  (∀ k it, map_find c.map k = some it →
    ∃ n ∈ c.lru_list, n.iter = it ∧ n.val = k ∧ ∀ n2 ∈ c.lru_list, n2.iter = it → n2 = n)

/-! ## The GDSF engine of the specification -/

/-- Modelled from the spec: the `CacheEntry` record of the GDSF engine declared in `gdsf.hpp`,
a header that is not among the sources (only its tests in src/testing/gdsf_tester.cpp are).
The floating-point `priority` is kept as an exact rational. -/
structure GdsfEntry where
  id : obj_id_t
  size : Nat
  frequency : Nat
  priority : ℚ
  sequence : Nat
deriving DecidableEq

/-- Modelled from the spec: the state of the GDSF engine of `gdsf.hpp` (absent from the
sources): the live entries, the inflation value `L` and the `clock`. -/
structure GdsfEngine where
  entries : List GdsfEntry
  L : ℚ
  clock : Nat
deriving DecidableEq

/-- Modelled from the spec: `priority = L + (frequency * COST_SCALE) / size` (section 3), the
formula of the absent `gdsf.hpp`. -/
def gdsf_priority (L : ℚ) (frequency size : Nat) : ℚ :=
  L + ((frequency : ℚ) * (COST_SCALE : ℚ)) / (size : ℚ)

/-- Modelled from the spec: the strict order on `(priority, sequence)` pairs of section 3,
used by the absent `gdsf.hpp`; equal priority is broken by the smaller sequence. -/
def gdsf_lt (e1 e2 : GdsfEntry) : Bool :=
  decide (e1.priority < e2.priority) ||
    (decide (e1.priority = e2.priority) && decide (e1.sequence < e2.sequence))

/-- Modelled from the spec: the minimum of the Priority Index of the absent `gdsf.hpp`, the
entry that is least in the `(priority, sequence)` order. -/
def gdsf_least : List GdsfEntry → Option GdsfEntry
  | [] => none
  | e :: es =>
    match gdsf_least es with
    | none => some e
    | some m => if gdsf_lt e m then some e else some m

namespace GdsfEngine

/-- Modelled from the spec: a new engine of the absent `gdsf.hpp`; `L` is initialised to 0. -/
def fresh : GdsfEngine := ⟨[], 0, 0⟩

/-- Modelled from the spec: `insert(id, size)` of the absent `gdsf.hpp` (section 4.1). A size
of 0 is rejected (no change); otherwise frequency is 1, sequence the next clock value,
priority `L + COST_SCALE / size`, and an existing entry of the id is replaced. -/
def insert (g : GdsfEngine) (id : obj_id_t) (size : Nat) : GdsfEngine :=
  if size = 0 then g
  else ⟨⟨id, size, 1, gdsf_priority g.L 1 size, g.clock + 1⟩
      :: g.entries.filter (fun e => e.id ≠ id), g.L, g.clock + 1⟩

/-- Modelled from the spec: `touch(id)` of the absent `gdsf.hpp` (section 4.2). A miss changes
nothing; a hit increments the frequency, takes the next clock value as sequence and
recomputes the priority from the current `L`. -/
def touch (g : GdsfEngine) (id : obj_id_t) : Bool × GdsfEngine :=
  if g.entries.any (fun e => decide (e.id = id)) then
    (true, ⟨g.entries.map (fun e => if e.id = id then
        ⟨e.id, e.size, e.frequency + 1, gdsf_priority g.L (e.frequency + 1) e.size, g.clock + 1⟩
        else e), g.L, g.clock + 1⟩)
  else (false, g)

/-- Modelled from the spec: `evict()` of the absent `gdsf.hpp` (section 4.3). On an empty cache
it returns 0; otherwise it extracts the minimum entry, sets `L` to its priority, removes it
and returns its id. -/
def evict (g : GdsfEngine) : obj_id_t × GdsfEngine :=
  match gdsf_least g.entries with
  | none => (0, g)
  | some m => (m.id, ⟨g.entries.filter (fun e => e.id ≠ m.id), m.priority, g.clock⟩)

/-- Modelled from the spec: `l_value()` of the absent `gdsf.hpp` (section 4.4). -/
def l_value (g : GdsfEngine) : ℚ := g.L

end GdsfEngine

/-- Modelled from the spec: one call on the GDSF engine of the absent `gdsf.hpp`; `Op.find`
stands for `touch`. -/
def gdsf_step (g : GdsfEngine) : Op → GdsfEngine
  | .insert id size => g.insert id size
  | .find id => (g.touch id).2
  | .evict => g.evict.2

/-- Modelled from the spec: a sequence of calls on the GDSF engine from a given state. -/
def gdsf_runFrom (g : GdsfEngine) (ops : List Op) : GdsfEngine := ops.foldl gdsf_step g

/-- Modelled from the spec: a sequence of calls on a new GDSF engine. -/
def gdsf_run (ops : List Op) : GdsfEngine := gdsf_runFrom GdsfEngine.fresh ops

/-- No live entry of the GDSF engine has a priority below the inflation value. -/
def Floor (g : GdsfEngine) : Prop := ∀ e ∈ g.entries, g.L ≤ e.priority

/-- Record a `find(id)` judged from the ledger's own records alone: a hit when the id has a
record (it was inserted and not evicted since), no change otherwise. -/
def ledger_find (t : Ledger) (id : obj_id_t) : Ledger :=
  if (seq_of t.entries id).isSome then t.on_hit id else t

/-- The ledger kept from the calls alone, without consulting the cache: inserts of the ids
`xs` with one common size followed by finds of the ids `fs`, started at clock 0. -/
def calls_ledger (xs : List obj_id_t) (size : Nat) (fs : List obj_id_t) : Ledger :=
  fs.foldl ledger_find (xs.foldl (fun t i => t.on_insert i size) ⟨[], 0⟩)

/-! ## Container lemmas -/

theorem lt_fresh_iter (l : List ListNode) : ∀ n ∈ l, n.iter < fresh_iter l := by
  induction l with
  | nil => intro n hn; cases hn
  | cons a l ih =>
    intro n hn
    have hfa : fresh_iter (a :: l) = max a.iter (fresh_iter l - 1) + 1 := by
      simp [fresh_iter]
    rcases List.mem_cons.1 hn with rfl | h
    · rw [hfa]; omega
    · have := ih n h
      rw [hfa]; omega

theorem map_find_assign (m : List (obj_id_t × Nat)) (k v k2 : Nat) :
    map_find (map_assign m k v) k2 = if k2 = k then some v else map_find m k2 := by
  induction m with
  | nil =>
    by_cases h : k2 = k
    · simp [map_assign, map_find, h]
    · have h2 : ¬ k = k2 := fun e => h e.symm
      simp [map_assign, map_find, h, h2]
  | cons p m ih =>
    obtain ⟨a, w⟩ := p
    by_cases hak : a = k
    · subst hak
      by_cases h : k2 = a
      · simp [map_assign, map_find, h]
      · have h2 : ¬ a = k2 := fun e => h e.symm
        simp [map_assign, map_find, h, h2]
    · by_cases h : a = k2
      · subst h
        simp [map_assign, map_find, hak]
      · simp [map_assign, map_find, hak, h, ih]

theorem map_find_erase (m : List (obj_id_t × Nat)) (k k2 : Nat) :
    map_find (map_erase m k) k2 = if k2 = k then none else map_find m k2 := by
  induction m with
  | nil => simp [map_erase, map_find]
  | cons p m ih =>
    obtain ⟨a, w⟩ := p
    have ih2 : map_find (List.filter (fun p => decide (p.1 ≠ k)) m) k2
        = if k2 = k then none else map_find m k2 := ih
    by_cases hak : a = k
    · subst hak
      by_cases h : k2 = a
      · simp [map_erase, List.filter_cons, map_find, h] at ih2 ⊢
        simpa [h] using ih2
      · have h2 : ¬ a = k2 := fun e => h e.symm
        simp [map_erase, List.filter_cons, map_find, h, h2] at ih2 ⊢
        simpa [h] using ih2
    · by_cases h : a = k2
      · subst h
        simp [map_erase, List.filter_cons, map_find, hak]
      · simp [map_erase, List.filter_cons, map_find, hak, h] at ih2 ⊢
        exact ih2

theorem map_find_isSome_iff (m : List (obj_id_t × Nat)) (k : Nat) :
    (map_find m k).isSome = true ↔ k ∈ m.map Prod.fst := by
  induction m with
  | nil => simp [map_find]
  | cons p m ih =>
    obtain ⟨a, w⟩ := p
    by_cases h : a = k
    · simp [map_find, h]
    · have h2 : ¬ k = a := fun e => h e.symm
      simp [map_find, h, h2, ih]

theorem keys_map_assign (m : List (obj_id_t × Nat)) (k v : Nat) :
    (map_assign m k v).map Prod.fst
      = if (map_find m k).isSome then m.map Prod.fst else m.map Prod.fst ++ [k] := by
  induction m with
  | nil => simp [map_assign, map_find]
  | cons p m ih =>
    obtain ⟨a, w⟩ := p
    by_cases h : a = k
    · simp [map_assign, map_find, h]
    · simp only [map_assign, map_find, h, if_false, List.map_cons, ih]
      split <;> simp

theorem keys_nodup_assign (m : List (obj_id_t × Nat)) (k v : Nat)
    (h : (m.map Prod.fst).Nodup) : ((map_assign m k v).map Prod.fst).Nodup := by
  rw [keys_map_assign]
  split
  · exact h
  · rename_i hn
    have hk : k ∉ m.map Prod.fst := fun hm => hn ((map_find_isSome_iff m k).2 hm)
    exact List.Nodup.append h (List.nodup_singleton k) (by
      intro a ha hb
      rw [List.mem_singleton] at hb
      subst hb
      exact hk ha)

theorem keys_nodup_erase (m : List (obj_id_t × Nat)) (k : Nat)
    (h : (m.map Prod.fst).Nodup) : ((map_erase m k).map Prod.fst).Nodup :=
  List.Nodup.sublist (List.Sublist.map _ (List.filter_sublist m)) h

/-! ## The dual-structure invariant is kept by every operation -/

theorem node_eq_of_iter {l : List ListNode} (h : (l.map ListNode.iter).Nodup)
    {a b : ListNode} (ha : a ∈ l) (hb : b ∈ l) (e : a.iter = b.iter) : a = b :=
  List.inj_on_of_nodup_map h ha hb e

theorem node_eq_of_val {l : List ListNode} (h : (l.map ListNode.val).Nodup)
    {a b : ListNode} (ha : a ∈ l) (hb : b ∈ l) (e : a.val = b.val) : a = b :=
  List.inj_on_of_nodup_map h ha hb e

theorem mem_list_erase {l : List ListNode} {it : Nat} {n : ListNode} :
    n ∈ list_erase l it ↔ n ∈ l ∧ n.iter ≠ it := by
  simp [list_erase, List.mem_filter]

/-- Erasing the node of `id` removes `id` from the sequence of stored ids. -/
theorem vals_list_erase {l : List ListNode} {it id : Nat}
    (hi : (l.map ListNode.iter).Nodup) (hv : (l.map ListNode.val).Nodup)
    (hm : (⟨it, id⟩ : ListNode) ∈ l) :
    (list_erase l it).map ListNode.val = (l.map ListNode.val).erase id := by
  induction l with
  | nil => cases hm
  | cons n l ih =>
    have hi2 := List.nodup_cons.1 hi
    have hv2 := List.nodup_cons.1 hv
    by_cases hn : n.iter = it
    · have hnode : n = ⟨it, id⟩ :=
        node_eq_of_iter hi (List.mem_cons_self _ _) hm hn
      have hrest : list_erase l it = l := by
        unfold list_erase
        apply List.filter_eq_self.2
        intro a ha
        have : a.iter ≠ it := by
          intro e
          apply hi2.1
          rw [hn, ← e]
          exact List.mem_map_of_mem _ ha
        simpa using this
      have hcons : list_erase (n :: l) it = list_erase l it := by
        simp [list_erase, List.filter_cons, hn]
      rw [hcons, hrest, hnode]
      simp
    · have hml : (⟨it, id⟩ : ListNode) ∈ l := by
        rcases List.mem_cons.1 hm with e | h
        · exact absurd (by rw [← e]) hn
        · exact h
      have hval : n.val ≠ id := by
        intro e
        apply hv2.1
        rw [e]
        exact List.mem_map.2 ⟨_, hml, rfl⟩
      have hcons : list_erase (n :: l) it = n :: list_erase l it := by
        simp [list_erase, List.filter_cons, hn]
      rw [hcons, List.map_cons, List.map_cons, ih hi2.2 hv2.2 hml,
        List.erase_cons_tail (by simpa using hval)]

/-- Linking a new front node for `id` to a list that no longer holds `id` keeps the invariant. -/
theorem inv_push (l1 : List ListNode) (m : List (obj_id_t × Nat)) (id : Nat)
    (hi : (l1.map ListNode.iter).Nodup) (hv : (l1.map ListNode.val).Nodup)
    (hk : (m.map Prod.fst).Nodup) (hid : id ∉ l1.map ListNode.val)
    (hl : ∀ k it, k ≠ id → (map_find m k = some it ↔ (⟨it, k⟩ : ListNode) ∈ l1)) :
    Inv ⟨list_push_front l1 id, map_assign m id (list_begin (list_push_front l1 id))⟩ := by
  have hfresh : fresh_iter l1 ∉ l1.map ListNode.iter := by
    intro h
    obtain ⟨n, hn, e⟩ := List.mem_map.1 h
    have := lt_fresh_iter l1 n hn
    omega
  refine ⟨?_, ?_, ?_, ?_⟩
  · simpa [list_push_front] using And.intro (by simpa using hfresh) hi
  · simpa [list_push_front] using And.intro (by simpa using hid) hv
  · exact keys_nodup_assign m id _ hk
  · intro k it
    simp only [map_find_assign, list_push_front, list_begin, List.mem_cons]
    by_cases hkid : k = id
    · subst hkid
      simp only [if_true]
      constructor
      · intro h
        left
        simp at h
        rw [h]
      · rintro (h | h)
        · simp at h
          simp [h]
        · exact absurd (List.mem_map.2 ⟨_, h, rfl⟩) hid
    · simp only [hkid, if_false]
      rw [hl k it hkid]
      constructor
      · intro h; exact Or.inr h
      · rintro (h | h)
        · simp at h
          exact absurd h.2 hkid
        · exact h

theorem inv_fresh : Inv fresh :=
  ⟨by simp [fresh], by simp [fresh], by simp [fresh], by simp [fresh, map_find]⟩

/-- Hypotheses of `inv_push` after the node of a live id has been erased. -/
theorem inv_erase_push {c : CacheManager} (h : Inv c) {id it : Nat}
    (hf : map_find c.map id = some it) :
    Inv ⟨list_push_front (list_erase c.lru_list it) id,
      map_assign c.map id (list_begin (list_push_front (list_erase c.lru_list it) id))⟩ := by
  have hnode : (⟨it, id⟩ : ListNode) ∈ c.lru_list := (h.link id it).1 hf
  have hsub : (list_erase c.lru_list it).Sublist c.lru_list := List.filter_sublist _
  apply inv_push
  · exact List.Nodup.sublist (List.Sublist.map _ hsub) h.iters_nodup
  · exact List.Nodup.sublist (List.Sublist.map _ hsub) h.vals_nodup
  · exact h.keys_nodup
  · intro hm
    obtain ⟨n, hn, e⟩ := List.mem_map.1 hm
    have hn2 := mem_list_erase.1 hn
    have : n = ⟨it, id⟩ := node_eq_of_val h.vals_nodup hn2.1 hnode e
    exact hn2.2 (by rw [this])
  · intro k it2 hk
    rw [h.link k it2, mem_list_erase]
    constructor
    · intro hm
      refine ⟨hm, ?_⟩
      intro e
      have : (⟨it2, k⟩ : ListNode) = ⟨it, id⟩ := node_eq_of_iter h.iters_nodup hm hnode e
      simp at this
      exact hk this.2
    · exact fun hm => hm.1

/-! ## The three operations on consistent states -/

theorem find_of_none {c : CacheManager} {id : Nat} (h : map_find c.map id = none) :
    c.find id = (false, c) := by
  simp [find, h]

theorem find_of_some {c : CacheManager} {id it : Nat} (h : map_find c.map id = some it) :
    c.find id = (true, ⟨list_push_front (list_erase c.lru_list it) id,
      map_assign c.map id (list_begin (list_push_front (list_erase c.lru_list it) id))⟩) := by
  simp [find, h]

theorem insert_of_none {c : CacheManager} {id : Nat} (size : Nat)
    (h : map_find c.map id = none) :
    c.insert id size = ⟨list_push_front c.lru_list id,
      map_assign c.map id (list_begin (list_push_front c.lru_list id))⟩ := by
  simp [CacheManager.insert, map_count, h]

theorem insert_of_some {c : CacheManager} {id it : Nat} (size : Nat)
    (h : map_find c.map id = some it) :
    c.insert id size = ⟨list_push_front (list_erase c.lru_list it) id,
      map_assign c.map id (list_begin (list_push_front (list_erase c.lru_list it) id))⟩ := by
  simp [CacheManager.insert, map_count, map_at, h]

theorem evict_of_nil {c : CacheManager} (h : c.lru_list = []) : c.evict = (0, c) := by
  simp [evict, h]

theorem evict_of_concat {c : CacheManager} {l : List ListNode} {n : ListNode}
    (h : c.lru_list = l ++ [n]) : c.evict = (n.val, ⟨l, map_erase c.map n.val⟩) := by
  simp [evict, h]

theorem mem_ids_iff_live {c : CacheManager} (h : Inv c) (id : Nat) :
    id ∈ c.ids ↔ live c id := by
  unfold live ids
  constructor
  · intro hm
    obtain ⟨n, hn, e⟩ := List.mem_map.1 hm
    have : map_find c.map id = some n.iter := (h.link id n.iter).2 (by subst e; exact hn)
    simp [this]
  · intro hl
    obtain ⟨it, hit⟩ := Option.isSome_iff_exists.1 hl
    exact List.mem_map.2 ⟨_, (h.link id it).1 hit, rfl⟩

theorem not_live_iff {c : CacheManager} {id : Nat} :
    ¬ live c id ↔ map_find c.map id = none := by
  unfold live
  cases map_find c.map id <;> simp

theorem inv_find {c : CacheManager} (h : Inv c) (id : Nat) : Inv (c.find id).2 := by
  cases hf : map_find c.map id with
  | none => rw [find_of_none hf]; exact h
  | some it => rw [find_of_some hf]; exact inv_erase_push h hf

theorem inv_insert {c : CacheManager} (h : Inv c) (id size : Nat) : Inv (c.insert id size) := by
  cases hf : map_find c.map id with
  | none =>
    rw [insert_of_none size hf]
    apply inv_push _ _ _ h.iters_nodup h.vals_nodup h.keys_nodup
    · intro hm
      have := (mem_ids_iff_live h id).1 hm
      exact (not_live_iff.2 hf) this
    · intro k it _
      exact h.link k it
  | some it => rw [insert_of_some size hf]; exact inv_erase_push h hf

theorem inv_evict {c : CacheManager} (h : Inv c) : Inv c.evict.2 := by
  rcases List.eq_nil_or_concat c.lru_list with hn | ⟨l, n, hc⟩
  · rw [evict_of_nil hn]; exact h
  · have hc2 : c.lru_list = l ++ [n] := by simpa using hc
    rw [evict_of_concat hc2]
    have hi := h.iters_nodup
    have hv := h.vals_nodup
    rw [hc2] at hi hv
    simp only [List.map_append, List.map_cons, List.map_nil] at hi hv
    have hv1 := (List.nodup_append.1 hv)
    refine ⟨(List.nodup_append.1 hi).1, hv1.1, keys_nodup_erase _ _ h.keys_nodup, ?_⟩
    intro k it
    simp only [map_find_erase]
    by_cases hk : k = n.val
    · simp only [hk, if_true]
      constructor
      · intro hx; cases hx
      · intro hm
        exfalso
        exact hv1.2.2 (List.mem_map.2 ⟨_, hm, rfl⟩) (List.mem_singleton.2 rfl)
    · simp only [hk, if_false]
      rw [h.link k it, hc2, List.mem_append, List.mem_singleton]
      constructor
      · rintro (hm | e)
        · exact hm
        · exact absurd (by rw [← e]) hk
      · exact fun hm => Or.inl hm

theorem inv_step {c : CacheManager} (h : Inv c) (op : Op) : Inv (step c op) := by
  cases op with
  | insert id size => exact inv_insert h id size
  | find id => exact inv_find h id
  | evict => exact inv_evict h

theorem inv_runFrom {c : CacheManager} (h : Inv c) (ops : List Op) : Inv (runFrom c ops) := by
  induction ops generalizing c with
  | nil => exact h
  | cons op ops ih => exact ih (inv_step h op)

theorem inv_of_reachable {c : CacheManager} (h : Reachable c) : Inv c := by
  obtain ⟨ops, rfl⟩ := h
  exact inv_runFrom inv_fresh ops

/-! ## Effect of the operations on the sequence of stored ids -/

theorem ids_insert {c : CacheManager} (h : Inv c) (id size : Nat) :
    (c.insert id size).ids = id :: c.ids.erase id := by
  cases hf : map_find c.map id with
  | none =>
    rw [insert_of_none size hf]
    have : id ∉ c.ids := fun hm => (not_live_iff.2 hf) ((mem_ids_iff_live h id).1 hm)
    have he : c.ids.erase id = c.ids := List.erase_of_not_mem this
    rw [he]
    simp [ids, list_push_front]
  | some it =>
    rw [insert_of_some size hf]
    simp [ids, list_push_front,
      vals_list_erase h.iters_nodup h.vals_nodup ((h.link id it).1 hf)]

theorem ids_find_live {c : CacheManager} (h : Inv c) {id : Nat} (hl : id ∈ c.ids) :
    (c.find id).1 = true ∧ (c.find id).2.ids = id :: c.ids.erase id := by
  obtain ⟨it, hf⟩ := Option.isSome_iff_exists.1 ((mem_ids_iff_live h id).1 hl)
  rw [find_of_some hf]
  simp [ids, list_push_front,
    vals_list_erase h.iters_nodup h.vals_nodup ((h.link id it).1 hf)]

theorem find_not_live {c : CacheManager} (h : Inv c) {id : Nat} (hl : id ∉ c.ids) :
    c.find id = (false, c) :=
  find_of_none (not_live_iff.1 (fun hx => hl ((mem_ids_iff_live h id).2 hx)))

theorem ids_evict (c : CacheManager) :
    c.evict.1 = c.ids.getLast?.getD 0 ∧ c.evict.2.ids = c.ids.dropLast := by
  rcases List.eq_nil_or_concat c.lru_list with hn | ⟨l, n, hc⟩
  · rw [evict_of_nil hn]; simp [ids, hn]
  · have hc2 : c.lru_list = l ++ [n] := by simpa using hc
    rw [evict_of_concat hc2]
    simp [ids, hc2]

theorem ids_nodup {c : CacheManager} (h : Inv c) : c.ids.Nodup := h.vals_nodup

/-- On a consistent state the map has as many entries as the list has nodes. -/
theorem item_count_eq_length {c : CacheManager} (h : Inv c) :
    c.item_count = c.lru_list.length := by
  have hp : (c.map.map Prod.fst).Perm c.ids := by
    rw [List.perm_ext_iff_of_nodup h.keys_nodup (ids_nodup h)]
    intro a
    rw [← map_find_isSome_iff, mem_ids_iff_live h]
    rfl
  have := hp.length_eq
  simpa [ids, item_count] using this

/-! ## Liveness through the map -/

theorem map_insert (c : CacheManager) (id size : Nat) :
    ∃ it, (c.insert id size).map = map_assign c.map id it := by
  exact ⟨_, rfl⟩

theorem live_insert_self (c : CacheManager) (id size : Nat) : live (c.insert id size) id := by
  obtain ⟨it, h⟩ := map_insert c id size
  simp [live, h, map_find_assign]

theorem live_insert_of_live {c : CacheManager} {w : Nat} (h : live c w) (id size : Nat) :
    live (c.insert id size) w := by
  obtain ⟨it, hm⟩ := map_insert c id size
  unfold live at h ⊢
  rw [hm, map_find_assign]
  split
  · rfl
  · exact h

theorem live_find_of_live {c : CacheManager} {w : Nat} (h : live c w) (id : Nat) :
    live (c.find id).2 w := by
  cases hf : map_find c.map id with
  | none => rw [find_of_none hf]; exact h
  | some it =>
    rw [find_of_some hf]
    unfold live at h ⊢
    simp only [map_find_assign]
    split
    · rfl
    · exact h

theorem live_evict_of_live {c : CacheManager} {w : Nat} (h : live c w) (hw : w ≠ c.evict.1) :
    live c.evict.2 w := by
  rcases List.eq_nil_or_concat c.lru_list with hn | ⟨l, n, hc⟩
  · rw [evict_of_nil hn]; exact h
  · have hc2 : c.lru_list = l ++ [n] := by simpa using hc
    rw [evict_of_concat hc2] at hw ⊢
    unfold live at h ⊢
    simp only [map_find_erase]
    rw [if_neg hw]
    exact h

theorem find_fst_eq_true_iff (c : CacheManager) (id : Nat) :
    (c.find id).1 = true ↔ live c id := by
  cases hf : map_find c.map id with
  | none => rw [find_of_none hf]; simp [live, hf]
  | some it => rw [find_of_some hf]; simp [live, hf]

theorem live_runFrom {c : CacheManager} {id : Nat} (ops : List Op) (h : live c id)
    (he : id ∉ evicted c ops) : live (runFrom c ops) id := by
  induction ops generalizing c with
  | nil => exact h
  | cons op ops ih =>
    cases op with
    | insert id2 size =>
      exact ih (live_insert_of_live h id2 size) (by simpa [evicted, step] using he)
    | find id2 =>
      exact ih (live_find_of_live h id2) (by simpa [evicted, step] using he)
    | evict =>
      have he2 : id ≠ c.evict.1 ∧ id ∉ evicted c.evict.2 ops := by
        simpa [evicted] using he
      exact ih (live_evict_of_live h he2.1) he2.2

/-! ## Claims C5 to C8 and C10 -/

/-- C5: `evict()` on an empty `CacheManager` returns the sentinel 0 and leaves the state
unchanged; the list and the map stay empty and the number of live entries stays 0. -/
theorem C5_evict_empty_returns_sentinel (c : CacheManager) (hl : c.lru_list = [])
    (hm : c.map = []) :
    c.evict.1 = 0 ∧ c.evict.2 = c ∧ c.evict.2.lru_list = [] ∧ c.evict.2.map = [] ∧
      c.evict.2.item_count = 0 := by
  rw [evict_of_nil hl]
  simp [hl, hm, item_count]

theorem C5_evict_empty_returns_sentinel_witness :
    fresh.lru_list = [] ∧ fresh.map = [] ∧
      (fresh.evict.1 = 0 ∧ fresh.evict.2 = fresh ∧ fresh.evict.2.lru_list = [] ∧
        fresh.evict.2.map = [] ∧ fresh.evict.2.item_count = 0) :=
  ⟨rfl, rfl, C5_evict_empty_returns_sentinel fresh rfl rfl⟩

/-- C6: `find(id)` on an id without a live entry returns false and leaves the whole state
(list contents and order, and map) identical. -/
theorem C6_find_miss_no_change (c : CacheManager) (id : obj_id_t) (h : ¬ live c id) :
    c.find id = (false, c) :=
  find_of_none (not_live_iff.1 h)

theorem C6_find_miss_no_change_witness :
    ¬ live (run [.insert 1 100]) 2 ∧
      (run [.insert 1 100]).find 2 = (false, run [.insert 1 100]) :=
  ⟨by decide, C6_find_miss_no_change (run [.insert 1 100]) 2 (by decide)⟩

/-- C7: after `insert(id, size)` the call `find(id)` returns true, and it still returns true
after any further calls as long as no `evict()` among them has returned `id`. -/
theorem C7_inserted_id_is_found (c : CacheManager) (id : obj_id_t) (size : Nat)
    (ops : List Op) (h : id ∉ evicted (c.insert id size) ops) :
    ((runFrom (c.insert id size) ops).find id).1 = true :=
  (find_fst_eq_true_iff _ _).2 (live_runFrom ops (live_insert_self c id size) h)

theorem C7_inserted_id_is_found_witness :
    (2 ∉ evicted ((run [.insert 1 100]).insert 2 50) [.find 2, .evict, .insert 3 7, .find 9]) ∧
      ((runFrom ((run [.insert 1 100]).insert 2 50)
        [.find 2, .evict, .insert 3 7, .find 9]).find 2).1 = true :=
  ⟨by decide, C7_inserted_id_is_found (run [.insert 1 100]) 2 50
    [.find 2, .evict, .insert 3 7, .find 9] (by decide)⟩

/-- C8: on a reachable non-empty state `evict()` returns an id that was live, the number of
live entries (and the length of the list) drops by exactly 1, every other live id stays
live, and `find` of the returned id right afterwards returns false. -/
theorem C8_evict_removes_exactly_victim (c : CacheManager) (hr : Reachable c)
    (hne : 0 < c.item_count) :
    live c c.evict.1 ∧ c.evict.2.item_count + 1 = c.item_count ∧
      c.evict.2.lru_list.length + 1 = c.lru_list.length ∧
      (∀ w, w ≠ c.evict.1 → live c w → live c.evict.2 w) ∧
      (c.evict.2.find c.evict.1).1 = false := by
  have hinv := inv_of_reachable hr
  have hinv2 := inv_evict hinv
  have hlen := item_count_eq_length hinv
  have hlen2 := item_count_eq_length hinv2
  rcases List.eq_nil_or_concat c.lru_list with hn | ⟨l, n, hc⟩
  · rw [hlen, hn] at hne; simp at hne
  · have hc2 : c.lru_list = l ++ [n] := by simpa using hc
    have hev := evict_of_concat hc2
    have hlive : live c n.val :=
      (mem_ids_iff_live hinv n.val).1 (by simp [ids, hc2])
    have hll : c.evict.2.lru_list.length + 1 = c.lru_list.length := by
      rw [hev, hc2]; simp
    refine ⟨by rw [hev]; exact hlive, by rw [hlen, hlen2]; exact hll, hll, ?_, ?_⟩
    · intro w hw hl
      exact live_evict_of_live hl hw
    · have hnl : ¬ live c.evict.2 c.evict.1 := by
        rw [hev]
        simp [live, map_find_erase]
      rw [find_of_none (not_live_iff.1 hnl)]

theorem C8_evict_removes_exactly_victim_witness :
    0 < (run [.insert 1 100, .insert 2 10]).item_count ∧
      (live (run [.insert 1 100, .insert 2 10]) (run [.insert 1 100, .insert 2 10]).evict.1 ∧
      (run [.insert 1 100, .insert 2 10]).evict.2.item_count + 1
        = (run [.insert 1 100, .insert 2 10]).item_count ∧
      (run [.insert 1 100, .insert 2 10]).evict.2.lru_list.length + 1
        = (run [.insert 1 100, .insert 2 10]).lru_list.length ∧
      (∀ w, w ≠ (run [.insert 1 100, .insert 2 10]).evict.1 →
        live (run [.insert 1 100, .insert 2 10]) w →
        live (run [.insert 1 100, .insert 2 10]).evict.2 w) ∧
      ((run [.insert 1 100, .insert 2 10]).evict.2.find
        (run [.insert 1 100, .insert 2 10]).evict.1).1 = false) :=
  ⟨by decide, C8_evict_removes_exactly_victim _ ⟨_, rfl⟩ (by decide)⟩

/-- C10 (as stated, refuted): `insert(1, 0)` on a fresh `CacheManager` is neither rejected nor a
no-op; it admits id 1, which is then live, stored in the list and counted. -/
theorem C10_zero_size_is_accepted :
    fresh.insert 1 0 ≠ fresh ∧ live (fresh.insert 1 0) 1 ∧ ¬ live fresh 1 ∧
      (fresh.insert 1 0).ids = [1] ∧ (fresh.insert 1 0).item_count = 1 ∧
      (fresh.insert 1 0).evict.1 = 1 := by
  decide

/-- C10 (amended): a size of 0 is treated like every other size. On every reachable state
`insert(id, 0)` yields the same state as `insert(id, size)` for any `size`; `id` is live
afterwards and is the front (most recently used) entry, the other ids keeping their order. -/
theorem C10_zero_size_like_any_size (c : CacheManager) (hr : Reachable c) (id : obj_id_t)
    (size : Nat) :
    c.insert id 0 = c.insert id size ∧ live (c.insert id 0) id ∧
      (c.insert id 0).ids = id :: c.ids.erase id :=
  ⟨rfl, live_insert_self c id 0, ids_insert (inv_of_reachable hr) id 0⟩

theorem C10_zero_size_like_any_size_witness :
    Reachable (run [.insert 1 100, .insert 2 10]) ∧
      ((run [.insert 1 100, .insert 2 10]).insert 1 0
          = (run [.insert 1 100, .insert 2 10]).insert 1 7 ∧
        live ((run [.insert 1 100, .insert 2 10]).insert 1 0) 1 ∧
        ((run [.insert 1 100, .insert 2 10]).insert 1 0).ids
          = 1 :: (run [.insert 1 100, .insert 2 10]).ids.erase 1) :=
  ⟨⟨_, rfl⟩, C10_zero_size_like_any_size _ ⟨_, rfl⟩ 1 7⟩

/-! ## Draining and counting -/

theorem ids_length (c : CacheManager) : c.ids.length = c.lru_list.length := by
  simp [ids]

theorem eq_fresh_of_ids_nil {c : CacheManager} (h : Inv c) (he : c.ids = []) : c = fresh := by
  have hl : c.lru_list = [] := by simpa [ids] using he
  have hm : c.map = [] := by
    have := item_count_eq_length h
    rw [hl] at this
    exact List.length_eq_zero.1 this
  cases c
  simp_all [fresh]

/-- Draining a consistent state returns its ids from the back of the list to the front and
ends in the empty state. -/
theorem drain_all (n : Nat) (c : CacheManager) (h : Inv c) (hn : c.ids.length = n) :
    drain n c = (c.ids.reverse, fresh) := by
  induction n generalizing c with
  | zero =>
    have he : c.ids = [] := List.length_eq_zero.1 hn
    rw [he, eq_fresh_of_ids_nil h he]
    rfl
  | succ n ih =>
    rcases List.eq_nil_or_concat c.lru_list with hnil | ⟨l, v, hc⟩
    · rw [ids_length, hnil] at hn; simp at hn
    · have hc2 : c.lru_list = l ++ [v] := by simpa using hc
      have hev := evict_of_concat hc2
      have hids : c.ids = l.map ListNode.val ++ [v.val] := by simp [ids, hc2]
      have hinv2 := inv_evict h
      have hlen : c.evict.2.ids.length = n := by
        rw [hev]
        rw [hids] at hn
        simpa [ids] using hn
      have := ih c.evict.2 hinv2 hlen
      simp only [drain, this, hids]
      rw [hev]
      simp [ids]

theorem item_count_insert {c : CacheManager} (h : Inv c) (id size : Nat) :
    (c.insert id size).item_count = c.item_count + (if live c id then 0 else 1) := by
  rw [item_count_eq_length (inv_insert h id size), item_count_eq_length h,
    ← ids_length, ← ids_length, ids_insert h]
  by_cases hl : live c id
  · have hm : id ∈ c.ids := (mem_ids_iff_live h id).2 hl
    have hpos := List.length_pos_of_mem hm
    simp only [hl, if_true, List.length_cons, List.length_erase_of_mem hm]
    omega
  · have hm : id ∉ c.ids := fun hx => hl ((mem_ids_iff_live h id).1 hx)
    simp [hl, List.erase_of_not_mem hm]

theorem item_count_find {c : CacheManager} (h : Inv c) (id : Nat) :
    (c.find id).2.item_count = c.item_count := by
  rw [item_count_eq_length (inv_find h id), item_count_eq_length h, ← ids_length, ← ids_length]
  by_cases hm : id ∈ c.ids
  · rw [(ids_find_live h hm).2]
    have hpos := List.length_pos_of_mem hm
    simp only [List.length_cons, List.length_erase_of_mem hm]
    omega
  · rw [find_not_live h hm]

theorem item_count_evict {c : CacheManager} (h : Inv c) :
    c.evict.2.item_count + (if c.lru_list = [] then 0 else 1) = c.item_count := by
  rw [item_count_eq_length (inv_evict h), item_count_eq_length h]
  rcases List.eq_nil_or_concat c.lru_list with hnil | ⟨l, v, hc⟩
  · rw [evict_of_nil hnil]; simp [hnil]
  · have hc2 : c.lru_list = l ++ [v] := by simpa using hc
    rw [evict_of_concat hc2, hc2]
    simp

theorem count_balance {c : CacheManager} (h : Inv c) (ops : List Op) :
    (runFrom c ops).item_count + evictions c ops = c.item_count + admissions c ops := by
  induction ops generalizing c with
  | nil => simp [runFrom, evictions, admissions]
  | cons op ops ih =>
    cases op with
    | insert id size =>
      have := ih (inv_insert h id size)
      have h2 := item_count_insert h id size
      simp only [runFrom, List.foldl_cons, step, evictions, admissions] at this ⊢
      omega
    | find id =>
      have := ih (inv_find h id)
      have h2 := item_count_find h id
      simp only [runFrom, List.foldl_cons, step, evictions, admissions] at this ⊢
      omega
    | evict =>
      have := ih (inv_evict h)
      have h2 := item_count_evict h
      simp only [runFrom, List.foldl_cons, step, evictions, admissions] at this ⊢
      omega

/-- C9 (as stated, refuted): after insert(1,10), insert(1,10), evict(), insert(1,10) one entry
is live, while the insert calls minus the evicted ids number 3 - 1 = 2 and the distinct ids
inserted minus the distinct ids evicted number 1 - 1 = 0. -/
theorem C9_naive_count_fails :
    (run [.insert 1 10, .insert 1 10, .evict, .insert 1 10]).item_count = 1 ∧
      (inserted_ids [.insert 1 10, .insert 1 10, .evict, .insert 1 10]).length
        - (evicted fresh [.insert 1 10, .insert 1 10, .evict, .insert 1 10]).length = 2 ∧
      (inserted_ids [.insert 1 10, .insert 1 10, .evict, .insert 1 10]).dedup.length
        - (evicted fresh [.insert 1 10, .insert 1 10, .evict, .insert 1 10]).dedup.length = 0 := by
  decide

/-- C9 (amended): after any sequence of insert, find and evict calls on a fresh
`CacheManager` the item count (size of the map, equal to the length of the list) is the
number of admissions (inserts of an id that is not live) minus the number of evictions
(evict calls on a non-empty cache). -/
theorem C9_item_count_accounting (ops : List Op) :
    (run ops).item_count = admissions fresh ops - evictions fresh ops ∧
      evictions fresh ops ≤ admissions fresh ops ∧
      (run ops).item_count = (run ops).lru_list.length := by
  have h := count_balance inv_fresh ops
  have h0 : fresh.item_count = 0 := rfl
  have hl := item_count_eq_length (inv_runFrom inv_fresh ops)
  unfold run
  refine ⟨by omega, by omega, hl⟩

/-! ## Claims C2 and C3 -/

theorem run_append (ops1 ops2 : List Op) : run (ops1 ++ ops2) = runFrom (run ops1) ops2 := by
  simp [run, runFrom, List.foldl_append]

theorem runFrom_append (c : CacheManager) (ops1 ops2 : List Op) :
    runFrom c (ops1 ++ ops2) = runFrom (runFrom c ops1) ops2 := by
  simp [runFrom, List.foldl_append]

theorem ids_find_pair {c : CacheManager} (h : Inv c) {a b x : Nat} (hab : a ≠ b)
    (hc : c.ids = [a, b] ∨ c.ids = [b, a]) (hx : x = a ∨ x = b) :
    (c.find x).2.ids = [x, if x = a then b else a] := by
  have hba : b ≠ a := fun e => hab e.symm
  have hm : x ∈ c.ids := by
    rcases hc with e | e <;> rcases hx with rfl | rfl <;> simp [e]
  rw [(ids_find_live h hm).2]
  rcases hc with e | e <;> rcases hx with rfl | rfl <;> simp [e, hab, hba, List.erase_cons]

theorem ids_finds_pair {c : CacheManager} (h : Inv c) {a b : Nat} (hab : a ≠ b)
    (hc : c.ids = [a, b] ∨ c.ids = [b, a]) (fs : List obj_id_t)
    (hfs : ∀ f ∈ fs, f = a ∨ f = b) :
    (runFrom c (fs.map Op.find)).ids = [a, b] ∨ (runFrom c (fs.map Op.find)).ids = [b, a] := by
  have hba : b ≠ a := fun e => hab e.symm
  induction fs generalizing c with
  | nil => exact hc
  | cons f fs ih =>
    have hf := hfs f (List.mem_cons_self _ _)
    have h1 := ids_find_pair h hab hc hf
    have hc2 : (c.find f).2.ids = [a, b] ∨ (c.find f).2.ids = [b, a] := by
      rcases hf with rfl | rfl
      · left; simpa using h1
      · right
        rw [h1, if_neg hba]
    exact ih (inv_find h f) hc2 (fun g hg => hfs g (List.mem_cons_of_mem _ hg))

/-- C2 (as stated, refuted): after insert(1,100), insert(2,100), find(1), find(1), find(2) id 1
has been hit more often than id 2 and the `(priority, sequence)` order is 2, 1, yet the
first `evict()` returns 1 and the second returns 2. -/
theorem C2_frequency_ignored :
    List.count (Op.find 2) [.insert 1 100, .insert 2 100, .find 1, .find 1, .find 2]
      < List.count (Op.find 1) [.insert 1 100, .insert 2 100, .find 1, .find 1, .find 2] ∧
    gdsf_order (runL [.insert 1 100, .insert 2 100, .find 1, .find 1, .find 2]).2.entries
      = [2, 1] ∧
    (drain 2 (run [.insert 1 100, .insert 2 100, .find 1, .find 1, .find 2])).1 = [1, 2] := by
  decide

/-- C2 (amended): for distinct ids `a` and `b` admitted (with any common size) into a fresh
`CacheManager` and then hit by any non-empty interleaving of `find(a)` and `find(b)`, the
first `evict()` returns the id that was not hit last and the second returns the id hit last;
the numbers of hits play no part. -/
theorem C2_last_hit_evicted_last (a b : obj_id_t) (s : Nat) (fs : List obj_id_t)
    (x : obj_id_t) (hab : a ≠ b) (hfs : ∀ f ∈ fs, f = a ∨ f = b) (hx : x = a ∨ x = b) :
    (drain 2 (run ([.insert a s, .insert b s] ++ (fs ++ [x]).map Op.find))).1
      = [if x = a then b else a, x] := by
  have hba : b ≠ a := fun e => hab e.symm
  have hinv0 : Inv (run [.insert a s, .insert b s]) := inv_runFrom inv_fresh _
  have hids0 : (run [.insert a s, .insert b s]).ids = [b, a] := by
    have h1 : (fresh.insert a s).ids = [a] := by
      rw [ids_insert inv_fresh]; simp [fresh, ids]
    have h2 := ids_insert (inv_insert inv_fresh a s) b s
    rw [h1] at h2
    simpa [run, runFrom, step, hab, List.erase_cons] using h2
  rw [run_append, List.map_append, runFrom_append]
  have hinv1 : Inv (runFrom (run [.insert a s, .insert b s]) (fs.map Op.find)) :=
    inv_runFrom hinv0 _
  have hids1 := ids_finds_pair hinv0 hab (Or.inr hids0) fs hfs
  have hids2 := ids_find_pair hinv1 hab hids1 hx
  have hinv2 := inv_find hinv1 x
  have hrun : runFrom (runFrom (run [.insert a s, .insert b s]) (fs.map Op.find))
      ([x].map Op.find)
      = ((runFrom (run [.insert a s, .insert b s]) (fs.map Op.find)).find x).2 := rfl
  rw [hrun, drain_all 2 _ hinv2 (by rw [hids2]; rfl), hids2]
  rfl

theorem C2_last_hit_evicted_last_witness :
    (1 : Nat) ≠ 2 ∧
      (drain 2 (run ([.insert 1 100, .insert 2 100] ++ ([1, 1] ++ [2]).map Op.find))).1
        = [if 2 = 1 then 2 else 1, 2] :=
  ⟨by decide, C2_last_hit_evicted_last 1 2 100 [1, 1] 2 (by decide) (by decide) (by decide)⟩

theorem ids_inserts {c : CacheManager} (h : Inv c) (xs : List (obj_id_t × Nat))
    (hnd : (xs.map Prod.fst).Nodup) (hd : ∀ p ∈ xs, p.1 ∉ c.ids) :
    (runFrom c (xs.map (fun p => Op.insert p.1 p.2))).ids
      = (xs.map Prod.fst).reverse ++ c.ids := by
  induction xs generalizing c with
  | nil => simp [runFrom]
  | cons p xs ih =>
    have hnd2 : p.1 ∉ xs.map Prod.fst ∧ (xs.map Prod.fst).Nodup :=
      List.nodup_cons.1 (by rw [List.map_cons] at hnd; exact hnd)
    have hp : p.1 ∉ c.ids := hd p (List.mem_cons_self _ _)
    have h1 : (c.insert p.1 p.2).ids = p.1 :: c.ids := by
      rw [ids_insert h, List.erase_of_not_mem hp]
    have hd2 : ∀ q ∈ xs, q.1 ∉ (c.insert p.1 p.2).ids := by
      intro q hq hm
      rw [h1] at hm
      rcases List.mem_cons.1 hm with e | hm
      · exact hnd2.1 (by rw [← e]; exact List.mem_map_of_mem Prod.fst hq)
      · exact hd q (List.mem_cons_of_mem _ hq) hm
    have := ih (inv_insert h p.1 p.2) hnd2.2 hd2
    simp only [List.map_cons, runFrom, List.foldl_cons, step] at this ⊢
    rw [this, h1]
    simp

/-- C3 (as stated, refuted): after insert(1,10), insert(2,1000) the ascending priority order
(largest size first) is 2, 1, yet successive `evict()` calls return 1 and then 2. -/
theorem C3_size_ignored :
    gdsf_order (runL [.insert 1 10, .insert 2 1000]).2.entries = [2, 1] ∧
      (drain 2 (run [.insert 1 10, .insert 2 1000])).1 = [1, 2] := by
  decide

/-- C3 (amended): for every sequence of admissions of pairwise distinct ids into a fresh
`CacheManager` and no hits, successive `evict()` calls return the ids in the order of their
admission (first admitted first), whatever the sizes, and leave the cache empty. -/
theorem C3_eviction_in_admission_order (xs : List (obj_id_t × Nat))
    (hnd : (xs.map Prod.fst).Nodup) :
    drain xs.length (run (xs.map (fun p => Op.insert p.1 p.2))) = (xs.map Prod.fst, fresh) := by
  have hids := ids_inserts inv_fresh xs hnd (by intro p _; simp [fresh, ids])
  have hinv : Inv (run (xs.map (fun p => Op.insert p.1 p.2))) := inv_runFrom inv_fresh _
  have hids2 : (run (xs.map (fun p => Op.insert p.1 p.2))).ids = (xs.map Prod.fst).reverse := by
    simpa [run, fresh, ids] using hids
  rw [drain_all _ _ hinv (by rw [hids2]; simp), hids2, List.reverse_reverse]

theorem C3_eviction_in_admission_order_witness :
    drain [((1 : Nat), (10 : Nat)), (2, 1000), (3, 5)].length
        (run ([((1 : Nat), (10 : Nat)), (2, 1000), (3, 5)].map (fun p => Op.insert p.1 p.2)))
      = ([((1 : Nat), (10 : Nat)), (2, 1000), (3, 5)].map Prod.fst, fresh) :=
  C3_eviction_in_admission_order [(1, 10), (2, 1000), (3, 5)] (by decide)

/-! ## Recency order: the list is sorted by recorded sequence number -/

theorem stamped_touch {l : List obj_id_t} {sq sq2 : obj_id_t → Option Nat} {clk : Nat}
    (h : Stamped l sq clk) (id : obj_id_t)
    (hsq : ∀ x, sq2 x = if x = id then some (clk + 1) else sq x) :
    Stamped (id :: l.erase id) sq2 (clk + 1) := by
  have hne : ∀ y ∈ l.erase id, y ≠ id := by
    intro y hy e
    subst e
    exact (List.Nodup.mem_erase_iff h.nodup).1 hy |>.1 rfl
  refine ⟨?_, ?_, ?_, ?_⟩
  · intro x
    rw [hsq x]
    by_cases hx : x = id
    · simp [hx]
    · simp only [hx, if_false, List.mem_cons, false_or]
      rw [List.mem_erase_of_ne hx]
      exact h.mem_iff x
  · rw [List.pairwise_cons]
    constructor
    · intro y hy
      have hyne := hne y hy
      rw [hsq y, hsq id, if_neg hyne, if_pos rfl]
      have hyl : y ∈ l := List.mem_of_mem_erase hy
      obtain ⟨s, hs⟩ := Option.isSome_iff_exists.1 ((h.mem_iff y).1 hyl)
      have := h.le_clock y s hs
      simp [hs]
      omega
    · have hsub : (l.erase id).Pairwise (fun x y => (sq y).getD 0 < (sq x).getD 0) :=
        List.Pairwise.sublist (List.erase_sublist id l) h.sorted
      refine List.Pairwise.imp_of_mem ?_ hsub
      intro x y hx hy hxy
      rw [hsq x, hsq y, if_neg (hne x hx), if_neg (hne y hy)]
      exact hxy
  · intro x s hs
    rw [hsq x] at hs
    by_cases hx : x = id
    · simp [hx] at hs
      omega
    · simp only [hx, if_false] at hs
      have := h.le_clock x s hs
      omega
  · rw [List.nodup_cons]
    exact ⟨fun hm => hne id hm rfl, List.Nodup.sublist (List.erase_sublist id l) h.nodup⟩

theorem stamped_dropLast {l : List obj_id_t} {sq sq2 : obj_id_t → Option Nat} {clk : Nat}
    {v : obj_id_t} (h : Stamped (l ++ [v]) sq clk)
    (hsq : ∀ x, sq2 x = if x = v then none else sq x) :
    Stamped l sq2 clk := by
  have hnd := List.nodup_append.1 h.nodup
  have hne : ∀ y ∈ l, y ≠ v := by
    intro y hy e
    exact hnd.2.2 hy (List.mem_singleton.2 e)
  refine ⟨?_, ?_, ?_, hnd.1⟩
  · intro x
    rw [hsq x]
    by_cases hx : x = v
    · simp only [hx, if_true, Option.isSome_none]
      constructor
      · intro hm; exact absurd rfl (hne v hm)
      · intro hf; cases hf
    · simp only [hx, if_false]
      rw [← h.mem_iff x]
      simp [hx]
  · have hsub : l.Pairwise (fun x y => (sq y).getD 0 < (sq x).getD 0) :=
      List.Pairwise.sublist (List.sublist_append_left l [v]) h.sorted
    refine List.Pairwise.imp_of_mem ?_ hsub
    intro x y hx hy hxy
    rw [hsq x, hsq y, if_neg (hne x hx), if_neg (hne y hy)]
    exact hxy
  · intro x s hs
    rw [hsq x] at hs
    by_cases hx : x = v
    · simp [hx] at hs
    · simp only [hx, if_false] at hs
      exact h.le_clock x s hs

theorem seq_of_filter (es : List CacheEntry) (id x : obj_id_t) :
    seq_of (es.filter (fun e => e.id ≠ id)) x = if x = id then none else seq_of es x := by
  induction es with
  | nil => simp [seq_of]
  | cons e es ih =>
    by_cases he : e.id = id
    · by_cases hx : x = id
      · simp [List.filter_cons, he, hx] at ih ⊢
        exact ih
      · have hidx : ¬ id = x := fun h => hx h.symm
        simp [List.filter_cons, he, hx, seq_of, hidx] at ih ⊢
        exact ih
    · by_cases hex : e.id = x
      · have hx : ¬ x = id := fun h => he (by rw [hex, h])
        simp [List.filter_cons, he, seq_of, hex, hx]
      · simp [List.filter_cons, he, seq_of, hex] at ih ⊢
        exact ih

theorem seq_of_hit (es : List CacheEntry) (id x clk : Nat) :
    seq_of (es.map (fun e => if e.id = id then
        (⟨e.id, e.size, e.frequency + 1, clk + 1⟩ : CacheEntry) else e)) x
      = if x = id then (seq_of es x).map (fun _ => clk + 1) else seq_of es x := by
  induction es with
  | nil => simp [seq_of]
  | cons e es ih =>
    by_cases he : e.id = id
    · by_cases hex : e.id = x
      · have hx : x = id := by rw [← hex, he]
        simp [seq_of, he, hx]
      · have hx : ¬ x = id := fun h => hex (by rw [he, h])
        have hidx : ¬ id = x := fun h => hx h.symm
        simp [seq_of, he, hx, hidx] at ih ⊢
        exact ih
    · by_cases hex : e.id = x
      · have hx : ¬ x = id := fun h => he (by rw [hex, h])
        simp [seq_of, he, hex, hx]
      · simp only [List.map_cons, seq_of, he, if_false, hex, ih]

theorem seq_of_on_insert (t : Ledger) (id size x : Nat) :
    seq_of (t.on_insert id size).entries x
      = if x = id then some (t.clock + 1) else seq_of t.entries x := by
  by_cases hx : x = id
  · simp [Ledger.on_insert, seq_of, hx]
  · have hidx : ¬ id = x := fun h => hx h.symm
    simp only [Ledger.on_insert, seq_of, hidx, if_false, seq_of_filter, hx]

theorem seq_of_mem {es : List CacheEntry} {x s : Nat} (h : seq_of es x = some s) :
    ∃ e ∈ es, e.id = x ∧ e.sequence = s := by
  induction es with
  | nil => simp [seq_of] at h
  | cons e es ih =>
    by_cases he : e.id = x
    · simp [seq_of, he] at h
      exact ⟨e, List.mem_cons_self _ _, he, h⟩
    · simp only [seq_of, he, if_false] at h
      obtain ⟨e2, hm, h2⟩ := ih h
      exact ⟨e2, List.mem_cons_of_mem _ hm, h2⟩

theorem seq_of_isSome_iff (es : List CacheEntry) (x : Nat) :
    (seq_of es x).isSome = true ↔ x ∈ es.map CacheEntry.id := by
  induction es with
  | nil => simp [seq_of]
  | cons e es ih =>
    by_cases he : e.id = x
    · simp [seq_of, he]
    · have h2 : ¬ x = e.id := fun h => he h.symm
      simp [seq_of, he, h2, ih]

theorem agree_fresh : Agree (fresh, ⟨[], 0⟩) :=
  ⟨inv_fresh, ⟨by simp [fresh, ids, seq_of], by simp [fresh, ids], by simp [seq_of],
    by simp [fresh, ids]⟩, by simp⟩

theorem entries_nodup_filter {es : List CacheEntry} (h : (es.map CacheEntry.id).Nodup)
    (id : Nat) : ((es.filter (fun e => e.id ≠ id)).map CacheEntry.id).Nodup :=
  List.Nodup.sublist (List.Sublist.map _ (List.filter_sublist es)) h

theorem ids_hit (es : List CacheEntry) (id clk : Nat) :
    (es.map (fun e => if e.id = id then
        (⟨e.id, e.size, e.frequency + 1, clk + 1⟩ : CacheEntry) else e)).map CacheEntry.id
      = es.map CacheEntry.id := by
  rw [List.map_map]
  apply List.map_congr_left
  intro e _
  simp only [Function.comp]
  split <;> rfl

theorem agree_step {s : CacheManager × Ledger} (h : Agree s) (op : Op) : Agree (stepL s op) := by
  cases op with
  | insert id size =>
    refine ⟨inv_insert h.inv id size, ?_, ?_⟩
    · simp only [stepL]
      rw [ids_insert h.inv]
      exact stamped_touch h.stamped id (fun x => seq_of_on_insert s.2 id size x)
    · simp only [stepL, Ledger.on_insert, List.map_cons]
      rw [List.nodup_cons]
      refine ⟨?_, entries_nodup_filter h.entries_nodup id⟩
      intro hm
      obtain ⟨e, he, hid⟩ := List.mem_map.1 hm
      have := (List.mem_filter.1 he).2
      simp at this
      exact this hid
  | find id =>
    by_cases hm : id ∈ s.1.ids
    · have hf := ids_find_live h.inv hm
      refine ⟨inv_find h.inv id, ?_, ?_⟩
      · simp only [stepL, hf.1, if_true]
        rw [hf.2]
        apply stamped_touch h.stamped id
        intro x
        simp only [Ledger.on_hit]
        rw [seq_of_hit]
        by_cases hx : x = id
        · obtain ⟨sv, hsv⟩ := Option.isSome_iff_exists.1 ((h.stamped.mem_iff id).1 hm)
          simp [hx, hsv]
        · simp [hx]
      · simp only [stepL, hf.1, if_true, Ledger.on_hit]
        rw [ids_hit]
        exact h.entries_nodup
    · have hf := find_not_live h.inv hm
      simp only [stepL, hf]
      exact ⟨h.inv, h.stamped, h.entries_nodup⟩
  | evict =>
    rcases List.eq_nil_or_concat s.1.lru_list with hn | ⟨l, v, hc⟩
    · simp only [stepL, evict_of_nil hn, hn, if_true]
      exact ⟨h.inv, h.stamped, h.entries_nodup⟩
    · have hc2 : s.1.lru_list = l ++ [v] := by simpa using hc
      have hne : ¬ s.1.lru_list = [] := by rw [hc2]; simp
      have hev := evict_of_concat hc2
      have hids : s.1.ids = l.map ListNode.val ++ [v.val] := by simp [ids, hc2]
      refine ⟨inv_evict h.inv, ?_, ?_⟩
      · simp only [stepL, hne, if_false]
        rw [hev]
        have hst := h.stamped
        rw [hids] at hst
        exact stamped_dropLast hst (fun x => seq_of_filter s.2.entries v.val x)
      · simp only [stepL, hne, if_false, Ledger.on_evict]
        exact entries_nodup_filter h.entries_nodup _

theorem agree_runLFrom {s : CacheManager × Ledger} (h : Agree s) (ops : List Op) :
    Agree (runLFrom s ops) := by
  induction ops generalizing s with
  | nil => exact h
  | cons op ops ih => exact ih (agree_step h op)

theorem agree_runL (ops : List Op) : Agree (runL ops) := agree_runLFrom agree_fresh ops

theorem runLFrom_fst (s : CacheManager × Ledger) (ops : List Op) :
    (runLFrom s ops).1 = runFrom s.1 ops := by
  induction ops generalizing s with
  | nil => rfl
  | cons op ops ih =>
    have : (stepL s op).1 = step s.1 op := by cases op <;> rfl
    simp only [runLFrom, runFrom, List.foldl_cons] at ih ⊢
    rw [ih, this]

theorem runL_fst (ops : List Op) : (runL ops).1 = run ops := runLFrom_fst _ ops

theorem seq_of_entry {es : List CacheEntry} (h : (es.map CacheEntry.id).Nodup)
    {e : CacheEntry} (he : e ∈ es) : seq_of es e.id = some e.sequence := by
  induction es with
  | nil => cases he
  | cons a es ih =>
    have hnd := List.nodup_cons.1 (by rw [List.map_cons] at h; exact h)
    rcases List.mem_cons.1 he with rfl | hm
    · simp [seq_of]
    · have hne : ¬ a.id = e.id := by
        intro e2
        apply hnd.1
        rw [e2]
        exact List.mem_map_of_mem CacheEntry.id hm
      simp only [seq_of, hne, if_false]
      exact ih hnd.2 hm

/-- On agreeing states the id at the back of the list carries the smallest recorded
sequence number, and `evict()` returns it. -/
theorem evict_least_recent {s : CacheManager × Ledger} (h : Agree s)
    (hne : s.2.entries ≠ []) :
    ∃ ev ∈ s.2.entries, ev.id = s.1.evict.1 ∧
      ∀ e ∈ s.2.entries, e ≠ ev → ev.sequence < e.sequence := by
  obtain ⟨e0, he0⟩ := List.exists_mem_of_ne_nil _ hne
  have hmem0 : e0.id ∈ s.1.ids :=
    (h.stamped.mem_iff e0.id).2 (by rw [seq_of_entry h.entries_nodup he0]; rfl)
  rcases List.eq_nil_or_concat s.1.lru_list with hn | ⟨l, v, hc⟩
  · simp [ids, hn] at hmem0
  · have hc2 : s.1.lru_list = l ++ [v] := by simpa using hc
    have hev := evict_of_concat hc2
    have hids : s.1.ids = l.map ListNode.val ++ [v.val] := by simp [ids, hc2]
    have hvm : v.val ∈ s.1.ids := by rw [hids]; simp
    obtain ⟨sv, hsv⟩ := Option.isSome_iff_exists.1 ((h.stamped.mem_iff v.val).1 hvm)
    obtain ⟨ev, hevm, hevid, hevs⟩ := seq_of_mem hsv
    refine ⟨ev, hevm, by rw [hev]; exact hevid, ?_⟩
    intro e he hne2
    have hid : e.id ≠ v.val := by
      intro e2
      apply hne2
      exact List.inj_on_of_nodup_map h.entries_nodup he hevm (by rw [e2, hevid])
    have hse := seq_of_entry h.entries_nodup he
    have hmem : e.id ∈ s.1.ids := (h.stamped.mem_iff e.id).2 (by rw [hse]; rfl)
    rw [hids] at hmem
    have hml : e.id ∈ l.map ListNode.val := by
      rcases List.mem_append.1 hmem with hm | hm
      · exact hm
      · exact absurd (List.mem_singleton.1 hm) hid
    have hsorted := h.stamped.sorted
    rw [hids, List.pairwise_append] at hsorted
    have := hsorted.2.2 e.id hml v.val (List.mem_singleton.2 rfl)
    rw [hse, hsv] at this
    simpa [hevs] using this

/-! ## Claims C1 and C4 -/

theorem ids_finds_perm {c : CacheManager} (h : Inv c) (fs : List obj_id_t) :
    (runFrom c (fs.map Op.find)).ids.Perm c.ids := by
  induction fs generalizing c with
  | nil => exact List.Perm.refl _
  | cons f fs ih =>
    have h1 : (c.find f).2.ids.Perm c.ids := by
      by_cases hm : f ∈ c.ids
      · rw [(ids_find_live h hm).2]
        exact (List.perm_cons_erase hm).symm
      · rw [find_not_live h hm]
    exact (ih (inv_find h f)).trans h1

/-- C1 (as stated, refuted): after insert(1,100), insert(2,100), find(1), find(1), find(2), with
all sizes at least 1 and no eviction so far, the entry minimal in the `(priority, sequence)`
order is id 2 (frequency 2, against frequency 3 of id 1), yet `evict()` returns 1. -/
theorem C1_evict_is_not_gdsf_min :
    noEvict [.insert 1 100, .insert 2 100, .find 1, .find 1, .find 2] ∧
    sizesPositive [.insert 1 100, .insert 2 100, .find 1, .find 1, .find 2] ∧
    gdsf_min (runL [.insert 1 100, .insert 2 100, .find 1, .find 1, .find 2]).2.entries
      = some ⟨2, 100, 2, 5⟩ ∧
    (⟨1, 100, 3, 4⟩ : CacheEntry)
      ∈ (runL [.insert 1 100, .insert 2 100, .find 1, .find 1, .find 2]).2.entries ∧
    (run [.insert 1 100, .insert 2 100, .find 1, .find 1, .find 2]).evict.1 = 1 := by
  refine ⟨?_, ?_, by decide, by decide, by decide⟩
  · intro op hop
    simp at hop
    rcases hop with rfl | rfl | rfl | rfl <;> simp
  · intro id size h
    simp at h
    rcases h with ⟨_, rfl⟩ | ⟨_, rfl⟩ <;> decide

/-- C1 (amended): for every sequence of insert and find calls on a fresh `CacheManager` before
any eviction that leaves at least one id live, the next `evict()` returns the live id with
the smallest sequence (the time of its last insert or successful find); the recorded ids are
exactly the live ids, and frequency and size play no part. -/
theorem C1_evict_returns_least_recent (ops : List Op) (_hno : noEvict ops)
    (hlive : (runL ops).2.entries ≠ []) :
    (∀ id, live (run ops) id ↔ ∃ e ∈ (runL ops).2.entries, e.id = id) ∧
    ∃ ev ∈ (runL ops).2.entries, ev.id = (run ops).evict.1 ∧
      ∀ e ∈ (runL ops).2.entries, e ≠ ev → ev.sequence < e.sequence := by
  have h := agree_runL ops
  constructor
  · intro id
    rw [← runL_fst, ← mem_ids_iff_live h.inv, h.stamped.mem_iff, seq_of_isSome_iff]
    simp [List.mem_map]
  · rw [← runL_fst]
    exact evict_least_recent h hlive

theorem C1_evict_returns_least_recent_witness :
    noEvict [.insert 1 1000, .insert 2 10, .find 1, .find 7] ∧
    (runL [.insert 1 1000, .insert 2 10, .find 1, .find 7]).2.entries ≠ [] ∧
    ((∀ id, live (run [.insert 1 1000, .insert 2 10, .find 1, .find 7]) id ↔
        ∃ e ∈ (runL [.insert 1 1000, .insert 2 10, .find 1, .find 7]).2.entries, e.id = id) ∧
      ∃ ev ∈ (runL [.insert 1 1000, .insert 2 10, .find 1, .find 7]).2.entries,
        ev.id = (run [.insert 1 1000, .insert 2 10, .find 1, .find 7]).evict.1 ∧
        ∀ e ∈ (runL [.insert 1 1000, .insert 2 10, .find 1, .find 7]).2.entries,
          e ≠ ev → ev.sequence < e.sequence) :=
  have hno : noEvict [.insert 1 1000, .insert 2 10, .find 1, .find 7] := by
    intro op hop
    simp at hop
    rcases hop with rfl | rfl | rfl | rfl <;> simp
  ⟨hno, by decide, C1_evict_returns_least_recent _ hno (by decide)⟩

theorem runLFrom_append (s : CacheManager × Ledger) (ops1 ops2 : List Op) :
    runLFrom s (ops1 ++ ops2) = runLFrom (runLFrom s ops1) ops2 := by
  simp [runLFrom, List.foldl_append]

theorem runLFrom_inserts_snd (s : CacheManager × Ledger) (xs : List obj_id_t) (size : Nat) :
    (runLFrom s (xs.map (fun i => Op.insert i size))).2
      = xs.foldl (fun t i => t.on_insert i size) s.2 := by
  induction xs generalizing s with
  | nil => rfl
  | cons x xs ih =>
    simp only [List.map_cons, runLFrom, List.foldl_cons] at ih ⊢
    rw [ih]
    rfl

/-- On agreeing states the reply of `find` is a hit exactly when the ledger has a record of
the id, so the bookkeeping of a `find` can be done from the ledger alone. -/
theorem stepL_find_snd {s : CacheManager × Ledger} (h : Agree s) (id : obj_id_t) :
    (stepL s (Op.find id)).2 = ledger_find s.2 id := by
  simp only [stepL, ledger_find]
  by_cases hm : id ∈ s.1.ids
  · have hs : (seq_of s.2.entries id).isSome = true := (h.stamped.mem_iff id).1 hm
    rw [(ids_find_live h.inv hm).1, hs]
  · have hs : ¬ (seq_of s.2.entries id).isSome = true :=
      fun hx => hm ((h.stamped.mem_iff id).2 hx)
    rw [find_not_live h.inv hm]
    simp [hs]

theorem runLFrom_finds_snd {s : CacheManager × Ledger} (h : Agree s) (fs : List obj_id_t) :
    (runLFrom s (fs.map Op.find)).2 = fs.foldl ledger_find s.2 := by
  induction fs generalizing s with
  | nil => rfl
  | cons f fs ih =>
    have h1 := ih (agree_step h (Op.find f))
    simp only [List.map_cons, runLFrom, List.foldl_cons] at h1 ⊢
    rw [h1, stepL_find_snd h f]

theorem runL_calls_ledger (xs : List obj_id_t) (size : Nat) (fs : List obj_id_t) :
    (runL (xs.map (fun i => Op.insert i size) ++ fs.map Op.find)).2
      = calls_ledger xs size fs := by
  unfold runL calls_ledger
  rw [runLFrom_append, runLFrom_finds_snd (agree_runLFrom agree_fresh _),
    runLFrom_inserts_snd]

/-- C4: after inserts of pairwise distinct ids with one common size followed by any sequence
of find calls on a fresh `CacheManager`, successive `evict()` calls return exactly the live
ids, each once, in ascending order of the time of their most recent insert or successful
find, and leave the cache empty. The times are those of `calls_ledger`, which is computed
from the calls alone: a find counts as successful when its id is among the inserted ones. -/
theorem C4_same_size_evicted_oldest_first (xs : List obj_id_t) (size : Nat)
    (fs : List obj_id_t) (hnd : xs.Nodup) :
    (drain xs.length (run (xs.map (fun i => Op.insert i size) ++ fs.map Op.find))).1.Perm xs ∧
    (drain xs.length (run (xs.map (fun i => Op.insert i size) ++ fs.map Op.find))).2 = fresh ∧
    List.Pairwise
      (fun x y => ∃ sx sy,
        seq_of (calls_ledger xs size fs).entries x = some sx ∧
        seq_of (calls_ledger xs size fs).entries y = some sy ∧ sx < sy)
      (drain xs.length (run (xs.map (fun i => Op.insert i size) ++ fs.map Op.find))).1 := by
  have hag := agree_runL (xs.map (fun i => Op.insert i size) ++ fs.map Op.find)
  have hst := hag.stamped
  have hinv := hag.inv
  rw [runL_fst] at hst hinv
  rw [runL_calls_ledger] at hst
  have hfst : (xs.map (fun i => (i, size))).map Prod.fst = xs := by
    rw [List.map_map]
    exact List.map_id xs
  have hops : (xs.map (fun i => (i, size))).map (fun p => Op.insert p.1 p.2)
      = xs.map (fun i => Op.insert i size) := by
    rw [List.map_map]
    rfl
  have hins : (runFrom fresh (xs.map (fun i => Op.insert i size))).ids = xs.reverse := by
    have := ids_inserts inv_fresh (xs.map (fun i => (i, size)))
      (by rw [hfst]; exact hnd) (by intro p _; simp [fresh, ids])
    rw [hfst, hops] at this
    simpa [fresh, ids] using this
  have hperm : (run (xs.map (fun i => Op.insert i size) ++ fs.map Op.find)).ids.Perm xs := by
    rw [run_append]
    refine (ids_finds_perm (inv_runFrom inv_fresh _) fs).trans ?_
    rw [hins]
    exact List.reverse_perm xs
  rw [drain_all _ _ hinv hperm.length_eq]
  refine ⟨(List.reverse_perm _).trans hperm, rfl, ?_⟩
  rw [List.pairwise_reverse]
  refine List.Pairwise.imp_of_mem ?_ hst.sorted
  intro x y hx hy hxy
  obtain ⟨sx, hsx⟩ := Option.isSome_iff_exists.1 ((hst.mem_iff x).1 hx)
  obtain ⟨sy, hsy⟩ := Option.isSome_iff_exists.1 ((hst.mem_iff y).1 hy)
  refine ⟨sy, sx, hsy, hsx, ?_⟩
  simpa [hsx, hsy] using hxy

/-- The scenario of `test_lru_behavior_same_size`: insert(1,100), insert(2,100), insert(3,100),
find(1) is drained as 2, 3, 1, the recorded times being 2, 3 and 4. -/
theorem C4_same_size_evicted_oldest_first_witness :
    [1, 2, 3].Nodup ∧
    (drain 3 (run [.insert 1 100, .insert 2 100, .insert 3 100, .find 1])).1 = [2, 3, 1] ∧
    seq_of (calls_ledger [1, 2, 3] 100 [1]).entries 2 = some 2 ∧
    seq_of (calls_ledger [1, 2, 3] 100 [1]).entries 3 = some 3 ∧
    seq_of (calls_ledger [1, 2, 3] 100 [1]).entries 1 = some 4 ∧
    ((drain [1, 2, 3].length
        (run ([1, 2, 3].map (fun i => Op.insert i 100) ++ [1].map Op.find))).1.Perm [1, 2, 3] ∧
    (drain [1, 2, 3].length
        (run ([1, 2, 3].map (fun i => Op.insert i 100) ++ [1].map Op.find))).2 = fresh ∧
    List.Pairwise
      (fun x y => ∃ sx sy,
        seq_of (calls_ledger [1, 2, 3] 100 [1]).entries x = some sx ∧
        seq_of (calls_ledger [1, 2, 3] 100 [1]).entries y = some sy ∧ sx < sy)
      (drain [1, 2, 3].length
        (run ([1, 2, 3].map (fun i => Op.insert i 100) ++ [1].map Op.find))).1) :=
  ⟨by decide, by decide, by decide, by decide, by decide,
    C4_same_size_evicted_oldest_first [1, 2, 3] 100 [1] (by decide)⟩

/-! ## Claims C12 and C13 -/

theorem bijection_of_inv {c : CacheManager} (h : Inv c) : Bijection c := by
  refine ⟨?_, h.vals_nodup, ?_⟩
  · intro id
    rw [← map_find_isSome_iff]
    exact (mem_ids_iff_live h id).symm
  · intro k it hf
    have hm := (h.link k it).1 hf
    refine ⟨⟨it, k⟩, hm, rfl, rfl, ?_⟩
    intro n2 hn2 e
    exact node_eq_of_iter h.iters_nodup hn2 hm e

/-- C12: in every state reachable from a fresh `CacheManager` the key set of the map equals
the set of ids in the list, the list holds no id twice, and the iterator stored for each id
denotes the one node of the list that holds it; `insert`, `find` and `evict` each lead to a
state with the same property. -/
theorem C12_dual_structure_bijection (c : CacheManager) (hr : Reachable c) :
    Bijection c ∧ (∀ id size, Bijection (c.insert id size)) ∧
      (∀ id, Bijection (c.find id).2) ∧ Bijection c.evict.2 := by
  have h := inv_of_reachable hr
  exact ⟨bijection_of_inv h, fun id size => bijection_of_inv (inv_insert h id size),
    fun id => bijection_of_inv (inv_find h id), bijection_of_inv (inv_evict h)⟩

theorem C12_dual_structure_bijection_witness :
    Reachable (run [.insert 1 100, .insert 2 10, .find 1, .evict]) ∧
      (Bijection (run [.insert 1 100, .insert 2 10, .find 1, .evict]) ∧
        (∀ id size, Bijection ((run [.insert 1 100, .insert 2 10, .find 1, .evict]).insert id size)) ∧
        (∀ id, Bijection ((run [.insert 1 100, .insert 2 10, .find 1, .evict]).find id).2) ∧
        Bijection (run [.insert 1 100, .insert 2 10, .find 1, .evict]).evict.2) :=
  ⟨⟨_, rfl⟩, C12_dual_structure_bijection _ ⟨_, rfl⟩⟩

theorem live_evict_fst {c : CacheManager} (h : Inv c) (hne : c.lru_list ≠ []) :
    live c c.evict.1 := by
  rcases List.eq_nil_or_concat c.lru_list with hn | ⟨l, n, hc⟩
  · exact absurd hn hne
  · have hc2 : c.lru_list = l ++ [n] := by simpa using hc
    rw [evict_of_concat hc2]
    exact (mem_ids_iff_live h n.val).1 (by simp [ids, hc2])

/-- C13 (as stated, refuted): after insert(0, 10) the cache holds one live entry, yet
`evict()` returns 0, the value it also returns on an empty cache. -/
theorem C13_sentinel_collides_with_id_zero :
    0 < (run [.insert 0 10]).item_count ∧ live (run [.insert 0 10]) 0 ∧
      (run [.insert 0 10]).evict.1 = 0 ∧ fresh.evict.1 = 0 := by
  decide

/-- C13 (amended): on every reachable state in which id 0 is not live, `evict()` returns 0
exactly when the cache is empty; a returned 0 is ambiguous only when id 0 has been inserted. -/
theorem C13_zero_only_when_empty_or_zero_live (c : CacheManager) (hr : Reachable c)
    (h0 : ¬ live c 0) : c.evict.1 = 0 ↔ c.item_count = 0 := by
  have h := inv_of_reachable hr
  have hlen := item_count_eq_length h
  constructor
  · intro he
    by_contra hne
    have hl : c.lru_list ≠ [] := by
      intro hn
      rw [hlen, hn] at hne
      exact hne rfl
    have := live_evict_fst h hl
    rw [he] at this
    exact h0 this
  · intro hz
    rw [hlen] at hz
    rw [evict_of_nil (List.length_eq_zero.1 hz)]

theorem C13_zero_only_when_empty_or_zero_live_witness :
    Reachable (run [.insert 5 10, .insert 7 3]) ∧ ¬ live (run [.insert 5 10, .insert 7 3]) 0 ∧
      ((run [.insert 5 10, .insert 7 3]).evict.1 = 0 ↔
        (run [.insert 5 10, .insert 7 3]).item_count = 0) :=
  ⟨⟨_, rfl⟩, by decide, C13_zero_only_when_empty_or_zero_live _ ⟨_, rfl⟩ (by decide)⟩

/-! ## Claims C14 to C17 -/

theorem live_insert_iff {c : CacheManager} {id : Nat} (hl : live c id) (size w : Nat) :
    live (c.insert id size) w ↔ live c w := by
  obtain ⟨it, hm⟩ := map_insert c id size
  unfold live at hl ⊢
  rw [hm, map_find_assign]
  by_cases hw : w = id
  · subst hw
    simp [hl]
  · simp [hw]

/-- C14: on a reachable state in which `id` is live, `insert(id, size)` leaves the number and
the set of live ids unchanged, and the ids then come out of successive `evict()` calls in
the order they had before with `id` moved to the very end. -/
theorem C14_duplicate_insert_moves_to_front (c : CacheManager) (hr : Reachable c)
    (id : obj_id_t) (size : Nat) (hl : live c id) :
    (c.insert id size).item_count = c.item_count ∧
      (∀ w, live (c.insert id size) w ↔ live c w) ∧
      (drain c.item_count (c.insert id size)).1
        = (drain c.item_count c).1.filter (fun w => w ≠ id) ++ [id] := by
  have h := inv_of_reachable hr
  have h2 := inv_insert h id size
  have hcnt : (c.insert id size).item_count = c.item_count := by
    rw [item_count_insert h, if_pos hl]
    rfl
  refine ⟨hcnt, fun w => live_insert_iff hl size w, ?_⟩
  have hn1 : c.ids.length = c.item_count := by
    rw [ids_length, item_count_eq_length h]
  have hn2 : (c.insert id size).ids.length = c.item_count := by
    rw [ids_length, ← item_count_eq_length h2, hcnt]
  rw [drain_all _ _ h2 hn2, drain_all _ _ h hn1, ids_insert h]
  simp only [List.reverse_cons]
  rw [List.Nodup.erase_eq_filter (ids_nodup h), List.filter_reverse]
  congr 2
  apply List.filter_congr
  intro w _
  by_cases hw : w = id <;> simp [hw]

theorem C14_duplicate_insert_moves_to_front_witness :
    Reachable (run [.insert 1 100, .insert 2 10, .insert 3 5]) ∧
      live (run [.insert 1 100, .insert 2 10, .insert 3 5]) 2 ∧
      (((run [.insert 1 100, .insert 2 10, .insert 3 5]).insert 2 77).item_count
          = (run [.insert 1 100, .insert 2 10, .insert 3 5]).item_count ∧
        (∀ w, live ((run [.insert 1 100, .insert 2 10, .insert 3 5]).insert 2 77) w ↔
          live (run [.insert 1 100, .insert 2 10, .insert 3 5]) w) ∧
        (drain (run [.insert 1 100, .insert 2 10, .insert 3 5]).item_count
            ((run [.insert 1 100, .insert 2 10, .insert 3 5]).insert 2 77)).1
          = (drain (run [.insert 1 100, .insert 2 10, .insert 3 5]).item_count
              (run [.insert 1 100, .insert 2 10, .insert 3 5])).1.filter (fun w => w ≠ 2)
            ++ [2]) :=
  ⟨⟨_, rfl⟩, by decide, C14_duplicate_insert_moves_to_front _ ⟨_, rfl⟩ 2 77 (by decide)⟩

/-- C15: the state after `insert` does not depend on the size argument: `insert(id, s1)` and
`insert(id, s2)` give identical states from every state, hence identical states and
identical `find` and `evict` results after any later sequence of calls. -/
theorem C15_insert_ignores_size (c : CacheManager) (id : obj_id_t) (s1 s2 : Nat) :
    c.insert id s1 = c.insert id s2 ∧
      ∀ ops, replies (c.insert id s1) ops = replies (c.insert id s2) ops ∧
        runFrom (c.insert id s1) ops = runFrom (c.insert id s2) ops :=
  ⟨rfl, fun _ => ⟨rfl, rfl⟩⟩

theorem map_assign_assign (m : List (obj_id_t × Nat)) (k v w : Nat) :
    map_assign (map_assign m k v) k w = map_assign m k w := by
  induction m with
  | nil => simp [map_assign]
  | cons p m ih =>
    obtain ⟨a, u⟩ := p
    by_cases h : a = k
    · simp [map_assign, h]
    · simp [map_assign, h, ih]

theorem list_erase_push_front (l : List ListNode) (id : Nat) :
    list_erase (list_push_front l id) (fresh_iter l) = l := by
  unfold list_erase list_push_front
  rw [List.filter_cons]
  simp only [ne_eq, not_true_eq_false, decide_False, Bool.false_eq_true, if_false]
  apply List.filter_eq_self.2
  intro n hn
  have := lt_fresh_iter l n hn
  simp
  omega

/-- Repeating the move of `id` to the front changes nothing. -/
theorem touch_again (l : List ListNode) (m : List (obj_id_t × Nat)) (id : Nat) :
    (CacheManager.find ⟨list_push_front l id,
        map_assign m id (list_begin (list_push_front l id))⟩ id).2
      = ⟨list_push_front l id, map_assign m id (list_begin (list_push_front l id))⟩ := by
  have hb : list_begin (list_push_front l id) = fresh_iter l := rfl
  have hf : map_find (map_assign m id (list_begin (list_push_front l id))) id
      = some (fresh_iter l) := by
    rw [map_find_assign, hb]; simp
  rw [find_of_some hf]
  simp only [list_erase_push_front, map_assign_assign]

theorem find_idem (c : CacheManager) (id : Nat) : ((c.find id).2.find id).2 = (c.find id).2 := by
  cases hf : map_find c.map id with
  | none => rw [find_of_none hf]; simp [find_of_none hf]
  | some it => rw [find_of_some hf]; exact touch_again _ _ _

theorem insert_eq_find {c : CacheManager} {id : Nat} (hl : live c id) (size : Nat) :
    c.insert id size = (c.find id).2 := by
  obtain ⟨it, hf⟩ := Option.isSome_iff_exists.1 hl
  rw [insert_of_some size hf, find_of_some hf]

/-- C16: on a state in which `id` is live, `insert(id, size)` and `find(id)` lead to the same
state; `find(id)` twice leaves the state of `find(id)` once, and `insert(id, size)` twice
leaves the state of `insert(id, size)` once. -/
theorem C16_insert_and_find_coincide (c : CacheManager) (id : obj_id_t) (size : Nat)
    (hl : live c id) :
    c.insert id size = (c.find id).2 ∧ ((c.find id).2.find id).2 = (c.find id).2 ∧
      (c.insert id size).insert id size = c.insert id size := by
  refine ⟨insert_eq_find hl size, find_idem c id, ?_⟩
  rw [insert_eq_find (live_insert_self c id size) size, insert_eq_find hl size]
  exact find_idem c id

theorem C16_insert_and_find_coincide_witness :
    live (run [.insert 1 100, .insert 2 10, .insert 3 5]) 1 ∧
      ((run [.insert 1 100, .insert 2 10, .insert 3 5]).insert 1 9
          = ((run [.insert 1 100, .insert 2 10, .insert 3 5]).find 1).2 ∧
        ((((run [.insert 1 100, .insert 2 10, .insert 3 5]).find 1).2).find 1).2
          = ((run [.insert 1 100, .insert 2 10, .insert 3 5]).find 1).2 ∧
        ((run [.insert 1 100, .insert 2 10, .insert 3 5]).insert 1 9).insert 1 9
          = (run [.insert 1 100, .insert 2 10, .insert 3 5]).insert 1 9) :=
  ⟨by decide, C16_insert_and_find_coincide _ 1 9 (by decide)⟩

theorem drain_fresh (k : Nat) : drain k fresh = (List.replicate k 0, fresh) := by
  induction k with
  | zero => rfl
  | succ k ih =>
    have he : fresh.evict = (0, fresh) := rfl
    simp only [drain, he, ih, List.replicate_succ]

/-- C17: for every state reached by a sequence of calls, with `n` live entries, `n`
successive `evict()` calls return `n` pairwise distinct ids, exactly the ids live before the
first call, in ascending order of the time of their most recent insert or successful find;
the cache is then empty and every further `evict()` returns 0. -/
theorem C17_drain_enumerates_once (ops : List Op) :
    (drain (run ops).item_count (run ops)).1.length = (run ops).item_count ∧
    (drain (run ops).item_count (run ops)).1.Nodup ∧
    (∀ id, id ∈ (drain (run ops).item_count (run ops)).1 ↔ live (run ops) id) ∧
    List.Pairwise
      (fun x y => ∃ sx sy, seq_of (runL ops).2.entries x = some sx ∧
        seq_of (runL ops).2.entries y = some sy ∧ sx < sy)
      (drain (run ops).item_count (run ops)).1 ∧
    (drain (run ops).item_count (run ops)).2 = fresh ∧
    ∀ k, drain k (drain (run ops).item_count (run ops)).2 = (List.replicate k 0, fresh) := by
  have hag := agree_runL ops
  have hst := hag.stamped
  have hinv := hag.inv
  rw [runL_fst] at hst hinv
  have hn : (run ops).ids.length = (run ops).item_count := by
    rw [ids_length, item_count_eq_length hinv]
  rw [drain_all _ _ hinv hn]
  refine ⟨by simpa using hn, List.nodup_reverse.2 (ids_nodup hinv), ?_, ?_, rfl,
    fun k => drain_fresh k⟩
  · intro id
    rw [List.mem_reverse]
    exact mem_ids_iff_live hinv id
  · rw [List.pairwise_reverse]
    refine List.Pairwise.imp_of_mem ?_ hst.sorted
    intro x y hx hy hxy
    obtain ⟨sx, hsx⟩ := Option.isSome_iff_exists.1 ((hst.mem_iff x).1 hx)
    obtain ⟨sy, hsy⟩ := Option.isSome_iff_exists.1 ((hst.mem_iff y).1 hy)
    refine ⟨sy, sx, hsy, hsx, ?_⟩
    simpa [hsx, hsy] using hxy

/-! ## Claim C11: the inflation value of the GDSF engine -/

theorem le_gdsf_priority (L : ℚ) (frequency size : Nat) : L ≤ gdsf_priority L frequency size := by
  unfold gdsf_priority
  have h : (0 : ℚ) ≤ ((frequency : ℚ) * (COST_SCALE : ℚ)) / (size : ℚ) := by positivity
  linarith

theorem gdsf_least_eq_none {es : List GdsfEntry} (h : gdsf_least es = none) : es = [] := by
  cases es with
  | nil => rfl
  | cons e es =>
    simp only [gdsf_least] at h
    cases hl : gdsf_least es with
    | none => rw [hl] at h; cases h
    | some m =>
      rw [hl] at h
      simp only at h
      split at h <;> cases h

theorem gdsf_least_spec {es : List GdsfEntry} {m : GdsfEntry} (h : gdsf_least es = some m) :
    m ∈ es ∧ ∀ e ∈ es, m.priority ≤ e.priority := by
  induction es generalizing m with
  | nil => simp [gdsf_least] at h
  | cons a es ih =>
    simp only [gdsf_least] at h
    cases hl : gdsf_least es with
    | none =>
      rw [hl] at h
      have hes := gdsf_least_eq_none hl
      have hm : a = m := by simpa using h
      subst hm hes
      simp
    | some m2 =>
      rw [hl] at h
      have ih2 := ih hl
      simp only at h
      by_cases hlt : gdsf_lt a m2 = true
      · rw [if_pos hlt] at h
        have hm : a = m := by simpa using h
        subst hm
        have hle : a.priority ≤ m2.priority := by
          unfold gdsf_lt at hlt
          simp only [Bool.or_eq_true, Bool.and_eq_true, decide_eq_true_eq] at hlt
          rcases hlt with h1 | ⟨h1, _⟩
          · exact le_of_lt h1
          · exact le_of_eq h1
        refine ⟨List.mem_cons_self _ _, ?_⟩
        intro e he
        rcases List.mem_cons.1 he with rfl | he2
        · exact le_refl _
        · exact le_trans hle (ih2.2 e he2)
      · rw [if_neg hlt] at h
        have hm : m2 = m := by simpa using h
        subst hm
        have hle : m2.priority ≤ a.priority := by
          unfold gdsf_lt at hlt
          simp only [Bool.or_eq_true, Bool.and_eq_true, decide_eq_true_eq, not_or, not_and,
            not_lt] at hlt
          exact hlt.1
        refine ⟨List.mem_cons_of_mem _ ih2.1, ?_⟩
        intro e he
        rcases List.mem_cons.1 he with rfl | he2
        · exact hle
        · exact ih2.2 e he2

theorem floor_fresh : Floor GdsfEngine.fresh := by
  intro e he
  cases he

theorem floor_step {g : GdsfEngine} (h : Floor g) (op : Op) :
    g.L ≤ (gdsf_step g op).L ∧ Floor (gdsf_step g op) := by
  cases op with
  | insert id size =>
    by_cases hs : size = 0
    · simp only [gdsf_step, GdsfEngine.insert, hs, if_true]
      exact ⟨le_refl _, h⟩
    · simp only [gdsf_step, GdsfEngine.insert, hs, if_false]
      refine ⟨le_refl _, ?_⟩
      intro e he
      rcases List.mem_cons.1 he with rfl | he2
      · exact le_gdsf_priority _ _ _
      · exact h e (List.mem_filter.1 he2).1
  | find id =>
    by_cases ha : g.entries.any (fun e => decide (e.id = id)) = true
    · simp only [gdsf_step, GdsfEngine.touch, ha, if_true]
      refine ⟨le_refl _, ?_⟩
      intro e he
      obtain ⟨e0, he0, rfl⟩ := List.mem_map.1 he
      by_cases hid : e0.id = id
      · simp only [hid, if_true]
        exact le_gdsf_priority _ _ _
      · simp only [hid, if_false]
        exact h e0 he0
    · simp only [gdsf_step, GdsfEngine.touch, ha]
      exact ⟨le_refl _, h⟩
  | evict =>
    cases hl : gdsf_least g.entries with
    | none =>
      simp only [gdsf_step, GdsfEngine.evict, hl]
      exact ⟨le_refl _, h⟩
    | some m =>
      have hm := gdsf_least_spec hl
      simp only [gdsf_step, GdsfEngine.evict, hl]
      refine ⟨h m hm.1, ?_⟩
      intro e he
      exact hm.2 e (List.mem_filter.1 he).1

theorem floor_runFrom {g : GdsfEngine} (h : Floor g) (ops : List Op) :
    g.L ≤ (gdsf_runFrom g ops).L ∧ Floor (gdsf_runFrom g ops) := by
  induction ops generalizing g with
  | nil => exact ⟨le_refl _, h⟩
  | cons op ops ih =>
    have h1 := floor_step h op
    have h2 := ih h1.2
    exact ⟨le_trans h1.1 h2.1, h2.2⟩

theorem gdsf_run_append (ops more : List Op) :
    gdsf_run (ops ++ more) = gdsf_runFrom (gdsf_run ops) more := by
  simp [gdsf_run, gdsf_runFrom, List.foldl_append]

/-- C11: in the GDSF engine of the specification the inflation value is 0 initially, never
decreases across any further sequence of insert, touch and evict calls, and after an
`evict()` of a non-empty cache equals the priority of the entry just evicted, which is the
minimum priority; an `evict()` of an empty cache returns 0 and changes nothing. -/
theorem C11_l_value_trajectory (ops more : List Op) :
    GdsfEngine.fresh.l_value = 0 ∧
    (gdsf_run ops).l_value ≤ (gdsf_run (ops ++ more)).l_value ∧
    (((gdsf_run ops).entries = [] ∧ (gdsf_run ops).evict = (0, gdsf_run ops)) ∨
      ∃ e ∈ (gdsf_run ops).entries, (gdsf_run ops).evict.1 = e.id ∧
        (gdsf_run ops).evict.2.l_value = e.priority ∧
        ∀ e2 ∈ (gdsf_run ops).entries, e.priority ≤ e2.priority) := by
  have hfl := (floor_runFrom floor_fresh ops).2
  refine ⟨rfl, ?_, ?_⟩
  · rw [gdsf_run_append]
    exact (floor_runFrom hfl more).1
  · cases hl : gdsf_least (gdsf_run ops).entries with
    | none =>
      left
      refine ⟨gdsf_least_eq_none hl, ?_⟩
      simp [GdsfEngine.evict, hl]
    | some m =>
      right
      have hm := gdsf_least_spec hl
      refine ⟨m, hm.1, ?_, ?_, hm.2⟩
      · simp [GdsfEngine.evict, hl]
      · simp [GdsfEngine.evict, hl, GdsfEngine.l_value]

/-- The scenario of `test_l_value_update`: L is 1000 after the first eviction, still 1000
after the second and 11000 after the third, and it does not decrease along the way. -/
theorem C11_l_value_trajectory_witness :
    (gdsf_run [.insert 1 1000, .insert 2 1000, .evict]).l_value = 1000 ∧
    (gdsf_run [.insert 1 1000, .insert 2 1000, .evict, .insert 3 100, .evict]).l_value = 1000 ∧
    (gdsf_run [.insert 1 1000, .insert 2 1000, .evict, .insert 3 100, .evict, .evict]).l_value
      = 11000 ∧
    (gdsf_run [.insert 1 1000, .insert 2 1000, .evict]).l_value
      ≤ (gdsf_run ([.insert 1 1000, .insert 2 1000, .evict]
          ++ [.insert 3 100, .evict, .evict])).l_value := by
  refine ⟨?_, ?_, ?_,
    (C11_l_value_trajectory [.insert 1 1000, .insert 2 1000, .evict]
      [.insert 3 100, .evict, .evict]).2.1⟩
  all_goals
    norm_num [gdsf_run, gdsf_runFrom, gdsf_step, GdsfEngine.insert, GdsfEngine.evict,
      GdsfEngine.fresh, gdsf_least, gdsf_lt, gdsf_priority, COST_SCALE, GdsfEngine.l_value]

end EvolveCache
